import Mathlib

/-!
Verification of the mo-graph core (`src/cyclegraph.cc`) of the model checker.

The embedding represents `CycleNode*` pointers by the stable identity of the
`ModelAction` the node wraps (a natural number): `CycleGraph::getNode` creates
exactly one node per action and never destroys it, so actions and node
pointers are in bijection.  The `HashTable` `actionToNode` becomes an
association list from action identities to node records; `std::vector` fields
become Lean lists with `push_back` as append-at-the-end and `back`/`pop_back`
acting on the last element, mirroring the C++ containers.
-/

/-- Identity of a `ModelAction` (and hence of its unique `CycleNode`). -/
abbrev NodeId := Nat

/-- CycleNode record: the mutable fields of the C++ `CycleNode` class
(`edges`, `back_edges`, `hasRMW`).  The wrapped action is the key under
which the record is stored, so it is not repeated here. -/
structure CycleNode where
  edges : List NodeId
  back_edges : List NodeId
  hasRMW : Option NodeId
  deriving Repr, DecidableEq

/-- Node state produced by the `CycleNode(const ModelAction *)` constructor:
no edges, no back edges, no RMW reader. -/
def CycleNode.fresh : CycleNode := ⟨[], [], none⟩

/-- The `actionToNode` hash table, as an association list. -/
abbrev NodeMap := List (NodeId × CycleNode)

/-- HashTable::get — first binding of the key, if any. -/
def mapGet : NodeMap → NodeId → Option CycleNode
  | [], _ => none
  | (k', v') :: rest, k => if k' = k then some v' else mapGet rest k

/-- HashTable::put — overwrite the binding of the key, or append a new one. -/
def mapPut : NodeMap → NodeId → CycleNode → NodeMap
  | [], k, v => [(k, v)]
  | (k', v') :: rest, k, v =>
      if k' = k then (k, v) :: rest else (k', v') :: mapPut rest k v

/-- Record stored for a node id, defaulting to a fresh node.  Every
graph-level operation of the source calls `getNode` before touching a node,
so whenever the source dereferences a `CycleNode*` the binding is present and
the default is never observed. -/
def getN (m : NodeMap) (k : NodeId) : CycleNode :=
  (mapGet m k).getD CycleNode.fresh

/-- CycleGraph state: the node table, the sticky cycle flag, its
last-committed value, and the two rollback logs. -/
structure CycleGraph where
  actionToNode : NodeMap
  hasCycles : Bool
  oldCycles : Bool
  rollbackvector : List NodeId
  rmwrollbackvector : List NodeId
  deriving Repr, DecidableEq

/-- CycleGraph::CycleGraph — empty table, `hasCycles = oldCycles = false`,
empty logs. -/
def CycleGraph.init : CycleGraph := ⟨[], false, false, [], []⟩

/-- Forward edge list of the node of action `k` (empty when the action has
never been inserted). -/
def edgesOf (g : CycleGraph) (k : NodeId) : List NodeId :=
  (getN g.actionToNode k).edges

/-- Back edge list of the node of action `k`. -/
def backEdgesOf (g : CycleGraph) (k : NodeId) : List NodeId :=
  (getN g.actionToNode k).back_edges

/-- RMW link of the node of action `k` (`CycleNode::getRMW`). -/
def rmwOf (g : CycleGraph) (k : NodeId) : Option NodeId :=
  (getN g.actionToNode k).hasRMW

/-- CycleNode::addEdge (src lines 376-384): scan `edges` for a duplicate; if
absent, push `node` onto `edges` and `this` onto `node->back_edges`.
Returns whether the edge is new, together with the updated table. -/
def nodeAddEdge (m : NodeMap) (self node : NodeId) : Bool × NodeMap :=
  let s := getN m self
  if node ∈ s.edges then (false, m)
  else
    let m1 := mapPut m self { s with edges := s.edges ++ [node] }
    let t := getN m1 node
    (true, mapPut m1 node { t with back_edges := t.back_edges ++ [self] })

/-- vector_remove_node (src lines 329-339): erase the first occurrence of an
element from a vector.  This is `List.erase`; the definition mirrors the
source loop. -/
def vector_remove_node : List NodeId → NodeId → List NodeId
  | [], _ => []
  | x :: rest, n => if x = n then rest else x :: vector_remove_node rest n

/-- CycleNode::removeEdge (src lines 345-354): pop the most recently added
forward edge and erase `this` from the popped node's `back_edges`.  Returns
the popped node, and the updated table.  `CycleNode::popEdge`, called by
`rollbackChanges`, is declared in the header that is not part of the visible
sources; per the spec it pops the most recently added outgoing edge
"repairing the inverse back-edge on the other endpoint", which is exactly
this function with the return value discarded. -/
def nodeRemoveEdge (m : NodeMap) (self : NodeId) : Option NodeId × NodeMap :=
  let s := getN m self
  match s.edges.getLast? with
  | none => (none, m)
  | some ret =>
      let m1 := mapPut m self { s with edges := s.edges.dropLast }
      let t := getN m1 ret
      (some ret, mapPut m1 ret { t with back_edges := vector_remove_node t.back_edges self })

/-- Modelled from the spec: `CycleNode::popEdge` (missing header) — the edge
undo step of `rollbackChanges`, "pop that node's most recently added outgoing
edge (repairing the inverse back-edge on the other endpoint)". -/
def popEdge (m : NodeMap) (self : NodeId) : NodeMap :=
  (nodeRemoveEdge m self).2

/-- CycleNode::setRMW (src lines 398-404): if a reader is already recorded,
report `true` and leave the link unchanged; otherwise record `node` and
report `false`. -/
def nodeSetRMW (m : NodeMap) (self node : NodeId) : Bool × NodeMap :=
  let s := getN m self
  match s.hasRMW with
  | some _ => (true, m)
  | none => (false, mapPut m self { s with hasRMW := some node })

/-- Modelled from the spec: `CycleNode::clearRMW` (missing header) — "removes
the link; used only by rollback". -/
def clearRMW (m : NodeMap) (self : NodeId) : NodeMap :=
  mapPut m self { getN m self with hasRMW := none }

/-- CycleGraph::getNode (src lines 39-47): look the action up in
`actionToNode`, creating and registering a fresh node on a miss.  In the
embedding the returned pointer is the action id itself, so only the table
update is recorded. -/
def getNodeG (g : CycleGraph) (act : NodeId) : CycleGraph :=
  match mapGet g.actionToNode act with
  | some _ => g
  | none => { g with actionToNode := mapPut g.actionToNode act CycleNode.fresh }

/-- Discovered-set insertion loop of the traversals (src lines 203-208 and
230-235): push every not-yet-discovered successor onto the stack and into the
discovered table, in edge order.  The C++ `queue` is a `std::vector` used as
a stack (`back`/`pop_back`), embedded with the list head as the stack top. -/
def pushSuccs : List NodeId → List NodeId → List NodeId → List NodeId × List NodeId
  | [], stack, disc => (stack, disc)
  | n :: rest, stack, disc =>
      if n ∈ disc then pushSuccs rest stack disc
      else pushSuccs rest (n :: stack) (n :: disc)

/-- Worklist loop of CycleGraph::checkReachable(CycleNode*, CycleNode*) (src
lines 197-210): pop a node, succeed if it is the target, otherwise push its
undiscovered successors.  The C++ loop needs no fuel because `discovered`
only grows; the fuel is a bound on the number of iterations, shown sufficient
below.  Returns the result together with the final discovered table. -/
def reachAux (m : NodeMap) (tgt : NodeId) : Nat → List NodeId → List NodeId → Bool × List NodeId
  | 0, _, disc => (false, disc)
  | _ + 1, [], disc => (false, disc)
  | fuel + 1, node :: stack, disc =>
      if node = tgt then (true, disc)
      else
        let st := pushSuccs (getN m node).edges stack disc
        reachAux m tgt fuel st.1 st.2

/-- Every node id that can ever be pushed by a traversal over `m`: the edge
targets of all records.  Used only to size the fuel. -/
def allTargets (m : NodeMap) : List NodeId :=
  m.flatMap (fun p => p.2.edges)

/-- Iteration bound for the worklist: one iteration per discovered node, and
the discovered set stays inside `from :: allTargets m`. -/
def reachBound (m : NodeMap) (a : NodeId) : Nat :=
  (a :: allTargets m).length + 1

/-- CycleGraph::checkReachable(CycleNode*, CycleNode*) (src lines 190-212):
depth-first worklist search for `to` starting at `a`, with a freshly reset
discovered set. -/
def checkReachableNodes (m : NodeMap) (a tgt : NodeId) : Bool :=
  (reachAux m tgt (reachBound m a) [a] [a]).1

/-- The `if (!hasCycles) hasCycles = checkReachable(tonode, fromnode);`
fragment of CycleGraph::addEdge (src lines 73-74 and 85-86): the cycle
pre-check runs only while the sticky flag is still false. -/
def cycleCheck (g : CycleGraph) (src tgt : NodeId) : CycleGraph :=
  if g.hasCycles then g
  else { g with hasCycles := checkReachableNodes g.actionToNode src tgt }

/-- The `if (node->addEdge(tonode)) rollbackvector.push_back(node);` fragment
of CycleGraph::addEdge and addRMWEdge (src lines 76-77, 88-89 and 129-130):
insert the edge and log the source node when the edge is new. -/
def insertAndLog (g : CycleGraph) (x y : NodeId) : CycleGraph :=
  let r := nodeAddEdge g.actionToNode x y
  { g with
    actionToNode := r.2,
    rollbackvector := if r.1 then g.rollbackvector ++ [x] else g.rollbackvector }

/-- CycleGraph::addEdge(CycleNode*, CycleNode*) (src lines 71-91): cycle
pre-check (only while `hasCycles` is still false), edge insertion with
logging, then the RMW fusion step: if `fromnode` has an RMW reader distinct
from `tonode`, repeat check and insertion from that reader. -/
def addEdgeNodes (g : CycleGraph) (fromnode tonode : NodeId) : CycleGraph :=
  let g2 := insertAndLog (cycleCheck g tonode fromnode) fromnode tonode
  match (getN g2.actionToNode fromnode).hasRMW with
  | none => g2
  | some rmwnode =>
      if rmwnode = tonode then g2
      else insertAndLog (cycleCheck g2 tonode rmwnode) rmwnode tonode

/-- CycleGraph::addEdge(const ModelAction*, const ModelAction*) (src lines
55-64): resolve/create both nodes, then add the edge between them. -/
def addEdge (g : CycleGraph) (from_ to_ : NodeId) : CycleGraph :=
  addEdgeNodes (getNodeG (getNodeG g from_) to_) from_ to_

/-- The `if (fromnode->setRMW(rmwnode)) hasCycles = true; else
rmwrollbackvector.push_back(fromnode);` fragment of CycleGraph::addRMWEdge
(src lines 114-117): a second RMW reader of the same write is a structural
violation recorded in the sticky flag and is not logged for rollback. -/
def setRMWAndLog (g : CycleGraph) (from_ rmw : NodeId) : CycleGraph :=
  let s := nodeSetRMW g.actionToNode from_ rmw
  if s.1 then { g with actionToNode := s.2, hasCycles := true }
  else { g with actionToNode := s.2,
                rmwrollbackvector := g.rmwrollbackvector ++ [from_] }

/-- CycleGraph::addRMWEdge (src lines 105-135): record the RMW reader
(setting `hasCycles` on a second reader, logging the node otherwise),
transfer every outgoing edge of `from` other than one to `rmw` onto `rmw`,
then add the edge `from → rmw` via `addEdgeNodes`.  The C++ transfer loop
re-reads `fromnode->getNumEdges()` each iteration, but the list it iterates
never changes during the loop — the insertions touch `rmwnode->edges` and
`tonode->back_edges` only, and when `rmwnode == fromnode` every insertion is
a duplicate and is dropped — so it is embedded as a fold over the edge list
read at loop entry. -/
def addRMWEdge (g : CycleGraph) (from_ rmw : NodeId) : CycleGraph :=
  let g2 := setRMWAndLog (getNodeG (getNodeG g from_) rmw) from_ rmw
  let g3 := (getN g2.actionToNode from_).edges.foldl
    (fun g t => if t = rmw then g else insertAndLog g rmw t) g2
  addEdgeNodes g3 from_ rmw

/-- CycleGraph::checkReachable(const ModelAction*, const ModelAction*) (src
lines 173-182): if either action has no node they cannot be related; answer
false.  Otherwise delegate to the node-level search. -/
def checkReachableActions (g : CycleGraph) (from_ to_ : NodeId) : Bool :=
  match mapGet g.actionToNode from_, mapGet g.actionToNode to_ with
  | some _, some _ => checkReachableNodes g.actionToNode from_ to_
  | _, _ => false

/-- Promise collaborator: only the thread-exclusion predicate is visible to
the graph (`Promise::eliminate_thread`). -/
structure Promise where
  eliminate_thread : Nat → Bool

/-- Worklist loop of CycleGraph::checkPromise (src lines 222-237): pop a
node, succeed if the promise eliminates the thread of its action, otherwise
push undiscovered successors.  `tid` gives each action's thread id
(`ModelAction::get_tid`). -/
def promiseAux (m : NodeMap) (tid : NodeId → Nat) (p : Promise) :
    Nat → List NodeId → List NodeId → Bool × List NodeId
  | 0, _, disc => (false, disc)
  | _ + 1, [], disc => (false, disc)
  | fuel + 1, node :: stack, disc =>
      if p.eliminate_thread (tid node) then (true, disc)
      else
        let st := pushSuccs (getN m node).edges stack disc
        promiseAux m tid p fuel st.1 st.2

/-- CycleGraph::checkPromise (src lines 214-239).  Unlike the action-level
`checkReachable`, the source does NOT test `actionToNode.get(fromact)` for
NULL: the null pointer is pushed onto the queue and dereferenced
(`node->getAction()->get_tid()`) on the first iteration.  That undefined
behaviour is modelled by the `none` result; a completed search yields
`some b`. -/
def checkPromise (g : CycleGraph) (tid : NodeId → Nat) (p : Promise)
    (fromact : NodeId) : Option Bool :=
  match mapGet g.actionToNode fromact with
  | none => none
  | some _ =>
      some (promiseAux g.actionToNode tid p (reachBound g.actionToNode fromact)
        [fromact] [fromact]).1

/-- CycleGraph::startChanges (src lines 241-246) only asserts that the state
is clean; it is embedded as the asserted proposition. -/
def startChangesOK (g : CycleGraph) : Prop :=
  g.rollbackvector = [] ∧ g.rmwrollbackvector = [] ∧ g.oldCycles = g.hasCycles

/-- CycleGraph::commitChanges (src lines 249-254): clear both logs and
snapshot `hasCycles`. -/
def commitChanges (g : CycleGraph) : CycleGraph :=
  { g with rollbackvector := [], rmwrollbackvector := [], oldCycles := g.hasCycles }

/-- CycleGraph::rollbackChanges (src lines 257-268): pop one edge per entry
of `rollbackvector` (in the source's iteration order, front to back), clear
the RMW link of every entry of `rmwrollbackvector`, restore `hasCycles` from
`oldCycles` and clear both logs. -/
def rollbackChanges (g : CycleGraph) : CycleGraph :=
  let m1 := g.rollbackvector.foldl popEdge g.actionToNode
  let m2 := g.rmwrollbackvector.foldl clearRMW m1
  { g with actionToNode := m2, hasCycles := g.oldCycles,
           rollbackvector := [], rmwrollbackvector := [] }

/-- CycleGraph::checkForCycles (src lines 271-274). -/
def checkForCycles (g : CycleGraph) : Bool :=
  g.hasCycles

/-- One mutating call of a transaction: `addEdge` or `addRMWEdge`. -/
inductive Op where
  | edge (from_ to_ : NodeId)
  | rmw (from_ rmw : NodeId)
  deriving Repr, DecidableEq

/-- Apply one operation to the graph. -/
def applyOp (g : CycleGraph) : Op → CycleGraph
  | .edge a b => addEdge g a b
  | .rmw a b => addRMWEdge g a b

/-- Apply a sequence of operations, first to last. -/
def applyOps (g : CycleGraph) (ops : List Op) : CycleGraph :=
  ops.foldl applyOp g

/-! ### Derived notions used by the specification statements -/

/-- Observational equivalence of node tables: every node id is mapped to the
same record.  An id bound to a fresh record and an unbound id are identified;
every node operation and every accessor of interest is invariant under
this. -/
def MapEquiv (m1 m2 : NodeMap) : Prop := ∀ k, getN m1 k = getN m2 k

/-- The edge-undo phase of `rollbackChanges`: one `popEdge` per log entry,
front to back. -/
def popAll (l : List NodeId) (m : NodeMap) : NodeMap :=
  l.foldl popEdge m

/-- The RMW-undo phase of `rollbackChanges`: one `clearRMW` per log entry. -/
def clearAll (l : List NodeId) (m : NodeMap) : NodeMap :=
  l.foldl clearRMW m

/-- Structural well-formedness of the node table: no duplicate edge between
the same ordered pair, and `back_edges` is the exact multiset inverse of
`edges`.  This holds for every graph the operations can build (the inverse
consistency invariant) and is what makes rollback exact. -/
def WFmap (m : NodeMap) : Prop :=
  ∀ a b : NodeId,
    (getN m a).edges.count b ≤ 1 ∧
      (getN m b).back_edges.count a = (getN m a).edges.count b

/-- Well-formedness of a graph state. -/
def WFG (g : CycleGraph) : Prop := WFmap g.actionToNode

/-- One step of the edge relation recorded in the table. -/
def edgeRel (m : NodeMap) (x y : NodeId) : Prop := y ∈ (getN m x).edges

/-- Reachability along recorded edges (reflexive-transitive closure), the
mathematical meaning computed by `checkReachableNodes`. -/
def NodeReach (m : NodeMap) (x y : NodeId) : Prop :=
  Relation.ReflTransGen (edgeRel m) x y

/-- Number of elements of `U` not yet in the discovered table: the
termination measure of the worklist loop (each push discovers a new element
of `U`, each iteration pops one stack entry). -/
def undisc (U disc : List NodeId) : Nat :=
  match U with
  | [] => 0
  | u :: rest => (if u ∈ disc then 0 else 1) + undisc rest disc

/-- Modelled from the spec, for the refinement claim about rollback order:
"for each entry in `edgeLog`, in reverse insertion order, pop that node's
most recently added outgoing edge (repairing the inverse back-edge on the
other endpoint); for each entry in `rmwLog`, in any order, clear that node's
RMW link; finally restore `hasCycles`; clear both logs." -/
def rollbackChangesSpec (g : CycleGraph) : CycleGraph :=
  let m1 := g.rollbackvector.reverse.foldl popEdge g.actionToNode
  let m2 := g.rmwrollbackvector.foldl clearRMW m1
  { g with actionToNode := m2, hasCycles := g.oldCycles,
           rollbackvector := [], rmwrollbackvector := [] }

/-- The state visible to the reachability engine: the graph plus the
reusable `discovered` scratch table (a member mutated even by the `const`
query methods). -/
structure CheckerState where
  graph : CycleGraph
  discovered : List NodeId
  deriving Repr, DecidableEq

/-- Stateful rendering of CycleGraph::checkReachable(CycleNode*,
CycleNode*): the discovered table is reset (`discovered->reset()`, src line
193) and rebuilt by the traversal; the graph itself is only read. -/
def checkReachableS (s : CheckerState) (a tgt : NodeId) : Bool × CheckerState :=
  let r := reachAux s.graph.actionToNode tgt
    (reachBound s.graph.actionToNode a) [a] [a]
  (r.1, { s with discovered := r.2 })

/-- Stateful rendering of CycleGraph::checkPromise: reset of the discovered
table followed by the traversal.  On an action with no node the traversal
dereferences NULL (see `checkPromise`); the discovered table has already
received the null entry when that happens. -/
def checkPromiseS (s : CheckerState) (tid : NodeId → Nat) (p : Promise)
    (fromact : NodeId) : Option Bool × CheckerState :=
  match mapGet s.graph.actionToNode fromact with
  | none => (none, { s with discovered := [fromact] })
  | some _ =>
      let r := promiseAux s.graph.actionToNode tid p
        (reachBound s.graph.actionToNode fromact) [fromact] [fromact]
      (some r.1, { s with discovered := r.2 })

/-! ## Basic lemmas about the association-list table -/

theorem mapGet_mapPut (m : NodeMap) (k : NodeId) (v : CycleNode) (j : NodeId) :
    mapGet (mapPut m k v) j = if j = k then some v else mapGet m j := by
  induction m with
  | nil =>
      by_cases h : j = k
      · subst h; simp [mapGet, mapPut]
      · have h' : k ≠ j := fun hh => h hh.symm
        simp [mapGet, mapPut, h, h']
  | cons p rest ih =>
      obtain ⟨k', v'⟩ := p
      by_cases hk : k' = k
      · subst hk
        by_cases hj : j = k'
        · subst hj; simp [mapGet, mapPut]
        · have hj' : k' ≠ j := fun hh => hj hh.symm
          simp [mapGet, mapPut, hj, hj']
      · by_cases hj : j = k'
        · subst hj
          have hjk : j ≠ k := fun hh => hk hh
          simp [mapGet, mapPut, hk, hjk]
        · have hj' : k' ≠ j := fun hh => hj hh.symm
          simp [mapGet, mapPut, hk, hj', ih]

theorem getN_mapPut (m : NodeMap) (k : NodeId) (v : CycleNode) (j : NodeId) :
    getN (mapPut m k v) j = if j = k then v else getN m j := by
  simp [getN, mapGet_mapPut]
  split <;> rfl

theorem mapGet_eq_some_of_isSome (m : NodeMap) (k : NodeId)
    (h : (mapGet m k).isSome) : mapGet m k = some (getN m k) := by
  cases hm : mapGet m k with
  | none => rw [hm] at h; simp at h
  | some v => simp [getN, hm]

theorem mapGet_mem (m : NodeMap) (k : NodeId) (v : CycleNode)
    (h : mapGet m k = some v) : (k, v) ∈ m := by
  induction m with
  | nil => simp [mapGet] at h
  | cons p rest ih =>
      obtain ⟨k', v'⟩ := p
      by_cases hk : k' = k
      · subst hk
        simp [mapGet] at h
        simp [h]
      · simp [mapGet, hk] at h
        simp [ih h]

theorem vector_remove_node_comm (l : List NodeId) (x y : NodeId) (h : x ≠ y) :
    vector_remove_node (vector_remove_node l x) y =
      vector_remove_node (vector_remove_node l y) x := by
  induction l with
  | nil => simp [vector_remove_node]
  | cons a rest ih =>
      by_cases hx : a = x
      · subst hx
        have hay : a ≠ y := h
        simp [vector_remove_node, hay]
      · by_cases hy : a = y
        · subst hy
          have hax : a ≠ x := fun hh => h hh.symm
          simp [vector_remove_node, hax]
        · simp [vector_remove_node, hx, hy, ih]

theorem vector_remove_node_of_not_mem (l : List NodeId) (n : NodeId)
    (h : n ∉ l) : vector_remove_node l n = l := by
  induction l with
  | nil => rfl
  | cons a rest ih =>
      simp at h
      simp [vector_remove_node, Ne.symm h.1, ih h.2]

theorem vector_remove_node_append_self (l : List NodeId) (n : NodeId)
    (h : n ∉ l) : vector_remove_node (l ++ [n]) n = l := by
  induction l with
  | nil => simp [vector_remove_node]
  | cons a rest ih =>
      simp at h
      simp [vector_remove_node, Ne.symm h.1, ih h.2]

theorem count_vector_remove_node_self (l : List NodeId) (n : NodeId) :
    (vector_remove_node l n).count n = l.count n - 1 := by
  induction l with
  | nil => simp [vector_remove_node]
  | cons a rest ih =>
      by_cases ha : a = n
      · subst ha
        simp [vector_remove_node, List.count_cons]
      · simp only [vector_remove_node, if_neg ha, List.count_cons, ih, beq_iff_eq,
          if_neg ha, Nat.add_zero]

theorem count_vector_remove_node_ne (l : List NodeId) (n x : NodeId) (h : x ≠ n) :
    (vector_remove_node l n).count x = l.count x := by
  induction l with
  | nil => simp [vector_remove_node]
  | cons a rest ih =>
      by_cases ha : a = n
      · subst ha
        simp [vector_remove_node, List.count_cons, Ne.symm h]
      · simp [vector_remove_node, ha, List.count_cons, ih]

theorem CycleNode.eq_of_fields {x y : CycleNode} (h1 : x.edges = y.edges)
    (h2 : x.back_edges = y.back_edges) (h3 : x.hasRMW = y.hasRMW) : x = y := by
  cases x; cases y; simp_all

/-! ## Field-level description of the node operations -/

theorem nodeAddEdge_of_mem {m : NodeMap} {a b : NodeId}
    (h : b ∈ (getN m a).edges) : nodeAddEdge m a b = (false, m) := by
  simp [nodeAddEdge, h]

theorem nodeAddEdge_fst (m : NodeMap) (a b : NodeId) :
    (nodeAddEdge m a b).1 = !decide (b ∈ (getN m a).edges) := by
  by_cases h : b ∈ (getN m a).edges <;> simp [nodeAddEdge, h]

theorem edges_nodeAddEdge (m : NodeMap) (a b k : NodeId) :
    (getN (nodeAddEdge m a b).2 k).edges =
      if k = a ∧ b ∉ (getN m a).edges then (getN m k).edges ++ [b]
      else (getN m k).edges := by
  by_cases h : b ∈ (getN m a).edges
  · simp [nodeAddEdge, h]
  · simp only [nodeAddEdge, if_neg h]
    simp only [getN_mapPut]
    by_cases hka : k = a <;> by_cases hkb : k = b <;> by_cases hba : b = a <;>
      simp_all [getN_mapPut]

theorem back_nodeAddEdge (m : NodeMap) (a b k : NodeId) :
    (getN (nodeAddEdge m a b).2 k).back_edges =
      if k = b ∧ b ∉ (getN m a).edges then (getN m k).back_edges ++ [a]
      else (getN m k).back_edges := by
  by_cases h : b ∈ (getN m a).edges
  · simp [nodeAddEdge, h]
  · simp only [nodeAddEdge, if_neg h]
    simp only [getN_mapPut]
    by_cases hka : k = a <;> by_cases hkb : k = b <;> by_cases hba : b = a <;>
      simp_all [getN_mapPut]

theorem rmw_nodeAddEdge (m : NodeMap) (a b k : NodeId) :
    (getN (nodeAddEdge m a b).2 k).hasRMW = (getN m k).hasRMW := by
  by_cases h : b ∈ (getN m a).edges
  · simp [nodeAddEdge, h]
  · simp only [nodeAddEdge, if_neg h]
    simp only [getN_mapPut]
    by_cases hka : k = a <;> by_cases hkb : k = b <;> by_cases hba : b = a <;>
      simp_all [getN_mapPut]

theorem popEdge_of_empty {m : NodeMap} {a : NodeId}
    (h : (getN m a).edges = []) : popEdge m a = m := by
  simp [popEdge, nodeRemoveEdge, h]

theorem edges_popEdge (m : NodeMap) (a k : NodeId) :
    (getN (popEdge m a) k).edges =
      if k = a then (getN m k).edges.dropLast else (getN m k).edges := by
  cases hl : (getN m a).edges.getLast? with
  | none =>
      rw [List.getLast?_eq_none_iff] at hl
      rw [popEdge_of_empty hl]
      by_cases hk : k = a
      · subst hk; simp [hl]
      · simp [hk]
  | some t =>
      simp only [popEdge, nodeRemoveEdge, hl, getN_mapPut]
      by_cases hka : k = a <;> by_cases hkt : k = t <;> by_cases hta : t = a <;>
        simp_all [getN_mapPut]

theorem back_popEdge_of_last {m : NodeMap} {a t : NodeId}
    (h : (getN m a).edges.getLast? = some t) (k : NodeId) :
    (getN (popEdge m a) k).back_edges =
      if k = t then vector_remove_node (getN m k).back_edges a
      else (getN m k).back_edges := by
  simp only [popEdge, nodeRemoveEdge, h, getN_mapPut]
  by_cases hka : k = a <;> by_cases hkt : k = t <;> by_cases hta : t = a <;>
    simp_all [getN_mapPut]

theorem rmw_popEdge (m : NodeMap) (a k : NodeId) :
    (getN (popEdge m a) k).hasRMW = (getN m k).hasRMW := by
  cases hl : (getN m a).edges.getLast? with
  | none =>
      rw [List.getLast?_eq_none_iff] at hl
      rw [popEdge_of_empty hl]
  | some t =>
      simp only [popEdge, nodeRemoveEdge, hl, getN_mapPut]
      by_cases hka : k = a <;> by_cases hkt : k = t <;> by_cases hta : t = a <;>
        simp_all [getN_mapPut]

theorem edges_clearRMW (m : NodeMap) (a k : NodeId) :
    (getN (clearRMW m a) k).edges = (getN m k).edges := by
  by_cases hk : k = a <;> simp [clearRMW, getN_mapPut, hk]

theorem back_clearRMW (m : NodeMap) (a k : NodeId) :
    (getN (clearRMW m a) k).back_edges = (getN m k).back_edges := by
  by_cases hk : k = a <;> simp [clearRMW, getN_mapPut, hk]

theorem rmw_clearRMW (m : NodeMap) (a k : NodeId) :
    (getN (clearRMW m a) k).hasRMW =
      if k = a then none else (getN m k).hasRMW := by
  by_cases hk : k = a <;> simp [clearRMW, getN_mapPut, hk]

theorem nodeSetRMW_of_some {m : NodeMap} {a r : NodeId}
    (h : (getN m a).hasRMW = some r) (b : NodeId) :
    nodeSetRMW m a b = (true, m) := by
  simp [nodeSetRMW, h]

theorem nodeSetRMW_fst (m : NodeMap) (a b : NodeId) :
    (nodeSetRMW m a b).1 = (getN m a).hasRMW.isSome := by
  cases h : (getN m a).hasRMW <;> simp [nodeSetRMW, h]

theorem edges_nodeSetRMW (m : NodeMap) (a b k : NodeId) :
    (getN (nodeSetRMW m a b).2 k).edges = (getN m k).edges := by
  cases h : (getN m a).hasRMW with
  | none =>
      by_cases hk : k = a <;> simp [nodeSetRMW, h, getN_mapPut, hk]
  | some r => simp [nodeSetRMW, h]

theorem back_nodeSetRMW (m : NodeMap) (a b k : NodeId) :
    (getN (nodeSetRMW m a b).2 k).back_edges = (getN m k).back_edges := by
  cases h : (getN m a).hasRMW with
  | none =>
      by_cases hk : k = a <;> simp [nodeSetRMW, h, getN_mapPut, hk]
  | some r => simp [nodeSetRMW, h]

theorem rmw_nodeSetRMW_of_none {m : NodeMap} {a : NodeId}
    (h : (getN m a).hasRMW = none) (b k : NodeId) :
    (getN (nodeSetRMW m a b).2 k).hasRMW =
      if k = a then some b else (getN m k).hasRMW := by
  by_cases hk : k = a <;> simp [nodeSetRMW, h, getN_mapPut, hk]

theorem getN_getNodeG (g : CycleGraph) (k j : NodeId) :
    getN (getNodeG g k).actionToNode j = getN g.actionToNode j := by
  cases h : mapGet g.actionToNode k with
  | none =>
      by_cases hj : j = k
      · subst hj
        simp [getNodeG, h, getN, mapGet_mapPut]
      · simp [getNodeG, h, getN_mapPut, hj]
  | some v => simp [getNodeG, h]

theorem getNodeG_hasCycles (g : CycleGraph) (k : NodeId) :
    (getNodeG g k).hasCycles = g.hasCycles := by
  cases h : mapGet g.actionToNode k <;> simp [getNodeG, h]

theorem getNodeG_oldCycles (g : CycleGraph) (k : NodeId) :
    (getNodeG g k).oldCycles = g.oldCycles := by
  cases h : mapGet g.actionToNode k <;> simp [getNodeG, h]

theorem getNodeG_rollbackvector (g : CycleGraph) (k : NodeId) :
    (getNodeG g k).rollbackvector = g.rollbackvector := by
  cases h : mapGet g.actionToNode k <;> simp [getNodeG, h]

theorem getNodeG_rmwrollbackvector (g : CycleGraph) (k : NodeId) :
    (getNodeG g k).rmwrollbackvector = g.rmwrollbackvector := by
  cases h : mapGet g.actionToNode k <;> simp [getNodeG, h]

/-! ## Observational equivalence of node tables -/

theorem MapEquiv.rfl (m : NodeMap) : MapEquiv m m := fun _ => Eq.refl _

theorem MapEquiv.symm {m1 m2 : NodeMap} (h : MapEquiv m1 m2) : MapEquiv m2 m1 :=
  fun k => (h k).symm

theorem MapEquiv.trans {m1 m2 m3 : NodeMap} (h1 : MapEquiv m1 m2)
    (h2 : MapEquiv m2 m3) : MapEquiv m1 m3 :=
  fun k => (h1 k).trans (h2 k)

theorem nodeAddEdge_congr {m1 m2 : NodeMap} (h : MapEquiv m1 m2) (a b : NodeId) :
    (nodeAddEdge m1 a b).1 = (nodeAddEdge m2 a b).1 ∧
      MapEquiv (nodeAddEdge m1 a b).2 (nodeAddEdge m2 a b).2 := by
  constructor
  · rw [nodeAddEdge_fst, nodeAddEdge_fst, h a]
  · intro k
    apply CycleNode.eq_of_fields
    · rw [edges_nodeAddEdge, edges_nodeAddEdge, h a, h k]
    · rw [back_nodeAddEdge, back_nodeAddEdge, h a, h k]
    · rw [rmw_nodeAddEdge, rmw_nodeAddEdge, h k]

theorem popEdge_congr {m1 m2 : NodeMap} (h : MapEquiv m1 m2) (a : NodeId) :
    MapEquiv (popEdge m1 a) (popEdge m2 a) := by
  intro k
  apply CycleNode.eq_of_fields
  · rw [edges_popEdge, edges_popEdge, h k]
  · cases hl : (getN m2 a).edges.getLast? with
    | none =>
        rw [List.getLast?_eq_none_iff] at hl
        rw [popEdge_of_empty (by rw [h a]; exact hl), popEdge_of_empty hl, h k]
    | some t =>
        rw [back_popEdge_of_last (by rw [h a]; exact hl),
          back_popEdge_of_last hl, h k]
  · rw [rmw_popEdge, rmw_popEdge, h k]

theorem clearRMW_congr {m1 m2 : NodeMap} (h : MapEquiv m1 m2) (a : NodeId) :
    MapEquiv (clearRMW m1 a) (clearRMW m2 a) := by
  intro k
  apply CycleNode.eq_of_fields
  · rw [edges_clearRMW, edges_clearRMW, h k]
  · rw [back_clearRMW, back_clearRMW, h k]
  · rw [rmw_clearRMW, rmw_clearRMW, h k]

/-! ## Commutation of the rollback primitives -/

theorem popEdge_comm (m : NodeMap) (x y : NodeId) :
    MapEquiv (popEdge (popEdge m x) y) (popEdge (popEdge m y) x) := by
  by_cases hxy : x = y
  · subst hxy; exact MapEquiv.rfl _
  · have hyx : ¬y = x := fun hh => hxy hh.symm
    have hex : (getN (popEdge m y) x).edges = (getN m x).edges := by
      rw [edges_popEdge, if_neg hxy]
    have hey : (getN (popEdge m x) y).edges = (getN m y).edges := by
      rw [edges_popEdge, if_neg hyx]
    cases hlx : (getN m x).edges.getLast? with
    | none =>
        rw [List.getLast?_eq_none_iff] at hlx
        rw [popEdge_of_empty hlx, popEdge_of_empty (hex.trans hlx)]
        exact MapEquiv.rfl _
    | some tx =>
        cases hly : (getN m y).edges.getLast? with
        | none =>
            rw [List.getLast?_eq_none_iff] at hly
            rw [popEdge_of_empty hly, popEdge_of_empty (hey.trans hly)]
            exact MapEquiv.rfl _
        | some ty =>
            intro k
            have hlx' : (getN (popEdge m y) x).edges.getLast? = some tx := by
              rw [hex, hlx]
            have hly' : (getN (popEdge m x) y).edges.getLast? = some ty := by
              rw [hey, hly]
            apply CycleNode.eq_of_fields
            · rw [edges_popEdge, edges_popEdge, edges_popEdge, edges_popEdge]
              by_cases hky : k = y <;> by_cases hkx : k = x <;> simp_all
            · rw [back_popEdge_of_last hly', back_popEdge_of_last hlx,
                back_popEdge_of_last hlx', back_popEdge_of_last hly]
              by_cases hkty : k = ty <;> by_cases hktx : k = tx <;>
                simp_all [vector_remove_node_comm _ _ _ hxy]
            · rw [rmw_popEdge, rmw_popEdge, rmw_popEdge, rmw_popEdge]

theorem clearRMW_comm (m : NodeMap) (x y : NodeId) :
    MapEquiv (clearRMW (clearRMW m x) y) (clearRMW (clearRMW m y) x) := by
  intro k
  apply CycleNode.eq_of_fields
  · rw [edges_clearRMW, edges_clearRMW, edges_clearRMW, edges_clearRMW]
  · rw [back_clearRMW, back_clearRMW, back_clearRMW, back_clearRMW]
  · rw [rmw_clearRMW, rmw_clearRMW, rmw_clearRMW, rmw_clearRMW]
    by_cases hky : k = y <;> by_cases hkx : k = x <;> simp_all

theorem popEdge_clearRMW_comm (m : NodeMap) (x y : NodeId) :
    MapEquiv (popEdge (clearRMW m y) x) (clearRMW (popEdge m x) y) := by
  have hex : (getN (clearRMW m y) x).edges = (getN m x).edges := edges_clearRMW m y x
  cases hlx : (getN m x).edges.getLast? with
  | none =>
      rw [List.getLast?_eq_none_iff] at hlx
      rw [popEdge_of_empty (hex.trans hlx), popEdge_of_empty hlx]
      exact MapEquiv.rfl _
  | some tx =>
      intro k
      have hlx' : (getN (clearRMW m y) x).edges.getLast? = some tx := by
        rw [hex, hlx]
      apply CycleNode.eq_of_fields
      · rw [edges_popEdge, edges_clearRMW, edges_clearRMW, edges_popEdge]
      · rw [back_popEdge_of_last hlx', back_clearRMW, back_clearRMW,
          back_popEdge_of_last hlx]
      · rw [rmw_popEdge, rmw_clearRMW, rmw_clearRMW, rmw_popEdge]

/-! ## Folded rollback actions -/

theorem popAll_nil (m : NodeMap) : popAll [] m = m := rfl

theorem popAll_cons (a : NodeId) (l : List NodeId) (m : NodeMap) :
    popAll (a :: l) m = popAll l (popEdge m a) := rfl

theorem popAll_append (l1 l2 : List NodeId) (m : NodeMap) :
    popAll (l1 ++ l2) m = popAll l2 (popAll l1 m) := by
  simp [popAll, List.foldl_append]

theorem clearAll_nil (m : NodeMap) : clearAll [] m = m := rfl

theorem clearAll_cons (a : NodeId) (l : List NodeId) (m : NodeMap) :
    clearAll (a :: l) m = clearAll l (clearRMW m a) := rfl

theorem clearAll_append (l1 l2 : List NodeId) (m : NodeMap) :
    clearAll (l1 ++ l2) m = clearAll l2 (clearAll l1 m) := by
  simp [clearAll, List.foldl_append]

theorem popAll_congr {m1 m2 : NodeMap} (h : MapEquiv m1 m2) (l : List NodeId) :
    MapEquiv (popAll l m1) (popAll l m2) := by
  induction l generalizing m1 m2 with
  | nil => exact h
  | cons a rest ih =>
      rw [popAll_cons, popAll_cons]
      exact ih (popEdge_congr h a)

theorem clearAll_congr {m1 m2 : NodeMap} (h : MapEquiv m1 m2) (l : List NodeId) :
    MapEquiv (clearAll l m1) (clearAll l m2) := by
  induction l generalizing m1 m2 with
  | nil => exact h
  | cons a rest ih =>
      rw [clearAll_cons, clearAll_cons]
      exact ih (clearRMW_congr h a)

theorem popEdge_popAll_comm (l : List NodeId) (m : NodeMap) (x : NodeId) :
    MapEquiv (popEdge (popAll l m) x) (popAll l (popEdge m x)) := by
  induction l generalizing m with
  | nil => exact MapEquiv.rfl _
  | cons a rest ih =>
      rw [popAll_cons, popAll_cons]
      exact (ih (popEdge m a)).trans (popAll_congr (popEdge_comm m a x) rest)

theorem clearRMW_clearAll_comm (l : List NodeId) (m : NodeMap) (x : NodeId) :
    MapEquiv (clearRMW (clearAll l m) x) (clearAll l (clearRMW m x)) := by
  induction l generalizing m with
  | nil => exact MapEquiv.rfl _
  | cons a rest ih =>
      rw [clearAll_cons, clearAll_cons]
      exact (ih (clearRMW m a)).trans (clearAll_congr (clearRMW_comm m a x) rest)

theorem clearRMW_popAll_comm (l : List NodeId) (m : NodeMap) (x : NodeId) :
    MapEquiv (clearRMW (popAll l m) x) (popAll l (clearRMW m x)) := by
  induction l generalizing m with
  | nil => exact MapEquiv.rfl _
  | cons a rest ih =>
      rw [popAll_cons, popAll_cons]
      exact (ih (popEdge m a)).trans
        (popAll_congr ((popEdge_clearRMW_comm m a x).symm) rest)

theorem clearAll_popAll_comm (r d : List NodeId) (m : NodeMap) :
    MapEquiv (clearAll r (popAll d m)) (popAll d (clearAll r m)) := by
  induction r generalizing m with
  | nil => exact MapEquiv.rfl _
  | cons a rest ih =>
      rw [clearAll_cons, clearAll_cons]
      exact (clearAll_congr (clearRMW_popAll_comm d m a) rest).trans
        (ih (clearRMW m a))

theorem popAll_swap (l1 l2 : List NodeId) (m : NodeMap) :
    MapEquiv (popAll (l1 ++ l2) m) (popAll (l2 ++ l1) m) := by
  induction l1 generalizing m with
  | nil => simp [popAll_append, popAll_nil]; exact MapEquiv.rfl _
  | cons a rest ih =>
      have h1 : popAll ((a :: rest) ++ l2) m = popAll (rest ++ l2) (popEdge m a) := rfl
      rw [h1]
      refine ((ih (popEdge m a)).trans ?_)
      rw [popAll_append, popAll_append, popAll_cons]
      exact popAll_congr ((popEdge_popAll_comm l2 m a).symm) rest

theorem clearAll_swap (l1 l2 : List NodeId) (m : NodeMap) :
    MapEquiv (clearAll (l1 ++ l2) m) (clearAll (l2 ++ l1) m) := by
  induction l1 generalizing m with
  | nil => simp [clearAll_append, clearAll_nil]; exact MapEquiv.rfl _
  | cons a rest ih =>
      have h1 : clearAll ((a :: rest) ++ l2) m = clearAll (rest ++ l2) (clearRMW m a) := rfl
      rw [h1]
      refine ((ih (clearRMW m a)).trans ?_)
      rw [clearAll_append, clearAll_append, clearAll_cons]
      exact clearAll_congr ((clearRMW_clearAll_comm l2 m a).symm) rest

/-- Composing the undo information of two consecutive mutation batches. -/
theorem undo_compose {m0 m1 m2 : NodeMap} {d1 r1 d2 r2 : List NodeId}
    (h2 : MapEquiv (clearAll r2 (popAll d2 m2)) m1)
    (h1 : MapEquiv (clearAll r1 (popAll d1 m1)) m0) :
    MapEquiv (clearAll (r1 ++ r2) (popAll (d1 ++ d2) m2)) m0 := by
  refine (clearAll_congr (popAll_swap d1 d2 m2) (r1 ++ r2)).trans ?_
  rw [popAll_append]
  refine (clearAll_swap r1 r2 (popAll d1 (popAll d2 m2))).trans ?_
  rw [clearAll_append]
  refine (clearAll_congr (clearAll_popAll_comm r2 d1 (popAll d2 m2)) r1).trans ?_
  refine (clearAll_congr (popAll_congr h2 d1) r1).trans h1

/-! ## Preservation of structural well-formedness -/

theorem count_snoc_self (l : List NodeId) (b : NodeId) :
    (l ++ [b]).count b = l.count b + 1 := by
  simp

theorem count_snoc_ne (l : List NodeId) {b q : NodeId} (h : q ≠ b) :
    (l ++ [b]).count q = l.count q := by
  simp [List.count_append, List.count_cons, Ne.symm h]

theorem WFmap_congr {m1 m2 : NodeMap} (h : MapEquiv m1 m2) (hw : WFmap m1) :
    WFmap m2 := by
  intro a b
  rw [← h a, ← h b]
  exact hw a b

theorem WFmap_nil : WFmap [] := by
  intro a b
  simp [getN, mapGet, CycleNode.fresh]

theorem WF_nodeAddEdge {m : NodeMap} (h : WFmap m) (a b : NodeId) :
    WFmap (nodeAddEdge m a b).2 := by
  by_cases hmem : b ∈ (getN m a).edges
  · rw [nodeAddEdge_of_mem hmem]
    exact h
  · intro p q
    have hcount : (getN m a).edges.count b = 0 := List.count_eq_zero.mpr hmem
    constructor
    · rw [edges_nodeAddEdge]
      by_cases hpa : p = a
      · rw [if_pos ⟨hpa, hmem⟩]
        subst hpa
        by_cases hqb : q = b
        · subst hqb
          rw [count_snoc_self, hcount]
        · rw [count_snoc_ne _ hqb]
          exact (h p q).1
      · rw [if_neg (by simp [hpa])]
        exact (h p q).1
    · rw [edges_nodeAddEdge, back_nodeAddEdge]
      by_cases hpa : p = a <;> by_cases hqb : q = b
      · rw [if_pos ⟨hqb, hmem⟩, if_pos ⟨hpa, hmem⟩]
        subst hpa; subst hqb
        rw [count_snoc_self, count_snoc_self, (h p q).2]
      · rw [if_neg (by simp [hqb]), if_pos ⟨hpa, hmem⟩]
        subst hpa
        rw [count_snoc_ne _ hqb]
        exact (h p q).2
      · rw [if_pos ⟨hqb, hmem⟩, if_neg (by simp [hpa])]
        subst hqb
        rw [count_snoc_ne _ hpa]
        exact (h p q).2
      · rw [if_neg (by simp [hqb]), if_neg (by simp [hpa])]
        exact (h p q).2

theorem WF_popEdge {m : NodeMap} (h : WFmap m) (x : NodeId) :
    WFmap (popEdge m x) := by
  cases hl : (getN m x).edges.getLast? with
  | none =>
      rw [List.getLast?_eq_none_iff] at hl
      rw [popEdge_of_empty hl]
      exact h
  | some t =>
      obtain ⟨D, hD⟩ := List.getLast?_eq_some_iff.mp hl
      intro p q
      constructor
      · rw [edges_popEdge]
        by_cases hpx : p = x
        · subst hpx
          rw [if_pos rfl]
          exact le_trans ((List.dropLast_sublist _).count_le q) (h p q).1
        · rw [if_neg hpx]
          exact (h p q).1
      · rw [edges_popEdge, back_popEdge_of_last hl]
        by_cases hpx : p = x <;> by_cases hqt : q = t
        · subst hpx; subst hqt
          rw [if_pos rfl, if_pos rfl, count_vector_remove_node_self, (h p q).2, hD,
            List.dropLast_concat, count_snoc_self]
          omega
        · subst hpx
          rw [if_pos rfl, if_neg hqt, hD, List.dropLast_concat, (h p q).2, hD,
            count_snoc_ne _ hqt]
        · subst hqt
          rw [if_pos rfl, if_neg hpx, count_vector_remove_node_ne _ _ _ hpx]
          exact (h p q).2
        · rw [if_neg hpx, if_neg hqt]
          exact (h p q).2

theorem WF_clearRMW {m : NodeMap} (h : WFmap m) (x : NodeId) :
    WFmap (clearRMW m x) := by
  intro a b
  simp only [edges_clearRMW, back_clearRMW]
  exact h a b

theorem WF_nodeSetRMW {m : NodeMap} (h : WFmap m) (a b : NodeId) :
    WFmap (nodeSetRMW m a b).2 := by
  intro p q
  simp only [edges_nodeSetRMW, back_nodeSetRMW]
  exact h p q

/-! ## Inversion: a logged mutation is undone by its rollback step -/

theorem popEdge_nodeAddEdge {m : NodeMap} {a b : NodeId} (h : WFmap m)
    (hmem : b ∉ (getN m a).edges) :
    MapEquiv (popEdge (nodeAddEdge m a b).2 a) m := by
  have hE : (getN (nodeAddEdge m a b).2 a).edges = (getN m a).edges ++ [b] := by
    rw [edges_nodeAddEdge]
    simp [hmem]
  have hl : (getN (nodeAddEdge m a b).2 a).edges.getLast? = some b := by
    rw [hE]
    exact List.getLast?_concat _
  intro k
  apply CycleNode.eq_of_fields
  · rw [edges_popEdge]
    by_cases hk : k = a
    · subst hk
      rw [if_pos rfl, hE, List.dropLast_concat]
    · rw [if_neg hk, edges_nodeAddEdge, if_neg (by simp [hk])]
  · rw [back_popEdge_of_last hl]
    by_cases hk : k = b
    · subst hk
      have hnb : a ∉ (getN m k).back_edges := by
        rw [← List.count_eq_zero, (h a k).2, List.count_eq_zero]
        exact hmem
      rw [if_pos rfl, back_nodeAddEdge, if_pos ⟨rfl, hmem⟩,
        vector_remove_node_append_self _ _ hnb]
    · rw [if_neg hk, back_nodeAddEdge, if_neg (by simp [hk])]
  · rw [rmw_popEdge, rmw_nodeAddEdge]

theorem clearRMW_nodeSetRMW {m : NodeMap} {a : NodeId}
    (h : (getN m a).hasRMW = none) (b : NodeId) :
    MapEquiv (clearRMW (nodeSetRMW m a b).2 a) m := by
  intro k
  apply CycleNode.eq_of_fields
  · rw [edges_clearRMW, edges_nodeSetRMW]
  · rw [back_clearRMW, back_nodeSetRMW]
  · rw [rmw_clearRMW]
    by_cases hk : k = a
    · subst hk
      rw [if_pos rfl, h]
    · rw [if_neg hk, rmw_nodeSetRMW_of_none h, if_neg hk]

/-- Composing the undo information of two consecutive edge-only batches. -/
theorem pop_undo_compose {m0 m1 m2 : NodeMap} {d1 d2 : List NodeId}
    (h2 : MapEquiv (popAll d2 m2) m1) (h1 : MapEquiv (popAll d1 m1) m0) :
    MapEquiv (popAll (d1 ++ d2) m2) m0 := by
  refine (popAll_swap d1 d2 m2).trans ?_
  rw [popAll_append]
  exact ((popAll_congr h2 d1).trans h1)

/-! ## Transaction-level undo information for each operation -/

theorem cycleCheck_actionToNode (g : CycleGraph) (src tgt : NodeId) :
    (cycleCheck g src tgt).actionToNode = g.actionToNode := by
  unfold cycleCheck; split <;> rfl

theorem cycleCheck_rollbackvector (g : CycleGraph) (src tgt : NodeId) :
    (cycleCheck g src tgt).rollbackvector = g.rollbackvector := by
  unfold cycleCheck; split <;> rfl

theorem cycleCheck_rmwrollbackvector (g : CycleGraph) (src tgt : NodeId) :
    (cycleCheck g src tgt).rmwrollbackvector = g.rmwrollbackvector := by
  unfold cycleCheck; split <;> rfl

theorem cycleCheck_oldCycles (g : CycleGraph) (src tgt : NodeId) :
    (cycleCheck g src tgt).oldCycles = g.oldCycles := by
  unfold cycleCheck; split <;> rfl

theorem insertAndLog_spec (g : CycleGraph) (x y : NodeId)
    (h : WFmap g.actionToNode) :
    ∃ d : List NodeId,
      (insertAndLog g x y).rollbackvector = g.rollbackvector ++ d ∧
      (insertAndLog g x y).rmwrollbackvector = g.rmwrollbackvector ∧
      (insertAndLog g x y).oldCycles = g.oldCycles ∧
      (insertAndLog g x y).hasCycles = g.hasCycles ∧
      WFmap (insertAndLog g x y).actionToNode ∧
      MapEquiv (popAll d (insertAndLog g x y).actionToNode) g.actionToNode := by
  by_cases hmem : y ∈ (getN g.actionToNode x).edges
  · have heq : insertAndLog g x y = g := by
      simp [insertAndLog, nodeAddEdge_of_mem hmem]
    rw [heq]
    exact ⟨[], by simp, rfl, rfl, rfl, h, MapEquiv.rfl _⟩
  · have hfst : (nodeAddEdge g.actionToNode x y).1 = true := by
      rw [nodeAddEdge_fst]
      simp [hmem]
    have hmap : (insertAndLog g x y).actionToNode = (nodeAddEdge g.actionToNode x y).2 := rfl
    have hrb : (insertAndLog g x y).rollbackvector = g.rollbackvector ++ [x] := by
      simp [insertAndLog, hfst]
    refine ⟨[x], hrb, rfl, rfl, rfl, ?_, ?_⟩
    · rw [hmap]
      exact WF_nodeAddEdge h x y
    · rw [hmap]
      have heq : popAll [x] (nodeAddEdge g.actionToNode x y).2 =
          popEdge (nodeAddEdge g.actionToNode x y).2 x := rfl
      rw [heq]
      exact popEdge_nodeAddEdge h hmem

theorem addEdgeNodes_spec (g : CycleGraph) (a b : NodeId)
    (h : WFmap g.actionToNode) :
    ∃ d : List NodeId,
      (addEdgeNodes g a b).rollbackvector = g.rollbackvector ++ d ∧
      (addEdgeNodes g a b).rmwrollbackvector = g.rmwrollbackvector ∧
      (addEdgeNodes g a b).oldCycles = g.oldCycles ∧
      WFmap (addEdgeNodes g a b).actionToNode ∧
      MapEquiv (popAll d (addEdgeNodes g a b).actionToNode) g.actionToNode := by
  have h1 : WFmap (cycleCheck g b a).actionToNode := by
    rw [cycleCheck_actionToNode]; exact h
  obtain ⟨d1, hrb1, hrmw1, hold1, _, hwf1, hundo1⟩ :=
    insertAndLog_spec (cycleCheck g b a) a b h1
  set g2 := insertAndLog (cycleCheck g b a) a b with hg2
  have hrb1' : g2.rollbackvector = g.rollbackvector ++ d1 := by
    rw [hrb1, cycleCheck_rollbackvector]
  have hrmw1' : g2.rmwrollbackvector = g.rmwrollbackvector := by
    rw [hrmw1, cycleCheck_rmwrollbackvector]
  have hold1' : g2.oldCycles = g.oldCycles := by
    rw [hold1, cycleCheck_oldCycles]
  have hundo1' : MapEquiv (popAll d1 g2.actionToNode) g.actionToNode := by
    rw [cycleCheck_actionToNode] at hundo1
    exact hundo1
  cases hrm : (getN g2.actionToNode a).hasRMW with
  | none =>
      refine ⟨d1, ?_⟩
      simp only [addEdgeNodes, ← hg2, hrm]
      exact ⟨hrb1', hrmw1', hold1', hwf1, hundo1'⟩
  | some r =>
      by_cases hrb : r = b
      · refine ⟨d1, ?_⟩
        simp only [addEdgeNodes, ← hg2, hrm, if_pos hrb]
        exact ⟨hrb1', hrmw1', hold1', hwf1, hundo1'⟩
      · have h2 : WFmap (cycleCheck g2 b r).actionToNode := by
          rw [cycleCheck_actionToNode]; exact hwf1
        obtain ⟨d2, hrb2, hrmw2, hold2, _, hwf2, hundo2⟩ :=
          insertAndLog_spec (cycleCheck g2 b r) r b h2
        refine ⟨d1 ++ d2, ?_⟩
        simp only [addEdgeNodes, ← hg2, hrm, if_neg hrb]
        rw [cycleCheck_actionToNode] at hundo2
        refine ⟨?_, ?_, ?_, hwf2, ?_⟩
        · rw [hrb2, cycleCheck_rollbackvector, hrb1', List.append_assoc]
        · rw [hrmw2, cycleCheck_rmwrollbackvector, hrmw1']
        · rw [hold2, cycleCheck_oldCycles, hold1']
        · exact pop_undo_compose hundo2 hundo1'

theorem transferLoop_spec (ts : List NodeId) (g : CycleGraph) (rmw : NodeId)
    (h : WFmap g.actionToNode) :
    ∃ d : List NodeId,
      (ts.foldl (fun g t => if t = rmw then g else insertAndLog g rmw t) g).rollbackvector
          = g.rollbackvector ++ d ∧
      (ts.foldl (fun g t => if t = rmw then g else insertAndLog g rmw t) g).rmwrollbackvector
          = g.rmwrollbackvector ∧
      (ts.foldl (fun g t => if t = rmw then g else insertAndLog g rmw t) g).oldCycles
          = g.oldCycles ∧
      WFmap (ts.foldl (fun g t => if t = rmw then g else insertAndLog g rmw t) g).actionToNode ∧
      MapEquiv (popAll d
          (ts.foldl (fun g t => if t = rmw then g else insertAndLog g rmw t) g).actionToNode)
        g.actionToNode := by
  induction ts generalizing g with
  | nil => exact ⟨[], by simp, rfl, rfl, h, MapEquiv.rfl _⟩
  | cons t rest ih =>
      by_cases ht : t = rmw
      · simpa [ht] using ih g h
      · obtain ⟨d1, hrb1, hrmw1, hold1, _, hwf1, hundo1⟩ := insertAndLog_spec g rmw t h
        obtain ⟨d2, hrb2, hrmw2, hold2, hwf2, hundo2⟩ := ih (insertAndLog g rmw t) hwf1
        refine ⟨d1 ++ d2, ?_, ?_, ?_, ?_, ?_⟩ <;>
          simp only [List.foldl_cons, if_neg ht]
        · rw [hrb2, hrb1, List.append_assoc]
        · rw [hrmw2, hrmw1]
        · rw [hold2, hold1]
        · exact hwf2
        · exact pop_undo_compose hundo2 hundo1

theorem getNodeG_equiv (g : CycleGraph) (k : NodeId) :
    MapEquiv (getNodeG g k).actionToNode g.actionToNode :=
  fun j => getN_getNodeG g k j

theorem addEdge_spec (g : CycleGraph) (a b : NodeId) (h : WFmap g.actionToNode) :
    ∃ d : List NodeId,
      (addEdge g a b).rollbackvector = g.rollbackvector ++ d ∧
      (addEdge g a b).rmwrollbackvector = g.rmwrollbackvector ∧
      (addEdge g a b).oldCycles = g.oldCycles ∧
      WFmap (addEdge g a b).actionToNode ∧
      MapEquiv (popAll d (addEdge g a b).actionToNode) g.actionToNode := by
  set g1 := getNodeG (getNodeG g a) b with hg1
  have hequiv : MapEquiv g1.actionToNode g.actionToNode :=
    (getNodeG_equiv (getNodeG g a) b).trans (getNodeG_equiv g a)
  have hwf1 : WFmap g1.actionToNode := WFmap_congr hequiv.symm h
  obtain ⟨d, hrb, hrmw, hold, hwf, hundo⟩ := addEdgeNodes_spec g1 a b hwf1
  refine ⟨d, ?_, ?_, ?_, hwf, ?_⟩
  · rw [show (addEdge g a b) = addEdgeNodes g1 a b from rfl, hrb, hg1,
      getNodeG_rollbackvector, getNodeG_rollbackvector]
  · rw [show (addEdge g a b) = addEdgeNodes g1 a b from rfl, hrmw, hg1,
      getNodeG_rmwrollbackvector, getNodeG_rmwrollbackvector]
  · rw [show (addEdge g a b) = addEdgeNodes g1 a b from rfl, hold, hg1,
      getNodeG_oldCycles, getNodeG_oldCycles]
  · exact hundo.trans hequiv

theorem setRMWAndLog_spec (g : CycleGraph) (a b : NodeId)
    (h : WFmap g.actionToNode) :
    ∃ r0 : List NodeId,
      (setRMWAndLog g a b).rollbackvector = g.rollbackvector ∧
      (setRMWAndLog g a b).rmwrollbackvector = g.rmwrollbackvector ++ r0 ∧
      (setRMWAndLog g a b).oldCycles = g.oldCycles ∧
      WFmap (setRMWAndLog g a b).actionToNode ∧
      MapEquiv (clearAll r0 (setRMWAndLog g a b).actionToNode) g.actionToNode := by
  cases hprior : (getN g.actionToNode a).hasRMW with
  | some r =>
      have heq : setRMWAndLog g a b = { g with hasCycles := true } := by
        simp [setRMWAndLog, nodeSetRMW_of_some hprior]
      rw [heq]
      exact ⟨[], rfl, by simp, rfl, h, MapEquiv.rfl _⟩
  | none =>
      have hfst : (nodeSetRMW g.actionToNode a b).1 = false := by
        rw [nodeSetRMW_fst, hprior]
        rfl
      have hmap : (setRMWAndLog g a b).actionToNode =
          (nodeSetRMW g.actionToNode a b).2 := by
        simp [setRMWAndLog, hfst]
      have hrmwl : (setRMWAndLog g a b).rmwrollbackvector =
          g.rmwrollbackvector ++ [a] := by
        simp [setRMWAndLog, hfst]
      have hrbl : (setRMWAndLog g a b).rollbackvector = g.rollbackvector := by
        simp [setRMWAndLog, hfst]
      have holdl : (setRMWAndLog g a b).oldCycles = g.oldCycles := by
        simp [setRMWAndLog, hfst]
      refine ⟨[a], hrbl, hrmwl, holdl, ?_, ?_⟩
      · rw [hmap]
        exact WF_nodeSetRMW h a b
      · rw [hmap]
        have hca : clearAll [a] (nodeSetRMW g.actionToNode a b).2 =
            clearRMW (nodeSetRMW g.actionToNode a b).2 a := rfl
        rw [hca]
        exact clearRMW_nodeSetRMW hprior b

theorem addRMWEdge_spec (g : CycleGraph) (a b : NodeId) (h : WFmap g.actionToNode) :
    ∃ d r : List NodeId,
      (addRMWEdge g a b).rollbackvector = g.rollbackvector ++ d ∧
      (addRMWEdge g a b).rmwrollbackvector = g.rmwrollbackvector ++ r ∧
      (addRMWEdge g a b).oldCycles = g.oldCycles ∧
      WFmap (addRMWEdge g a b).actionToNode ∧
      MapEquiv (clearAll r (popAll d (addRMWEdge g a b).actionToNode))
        g.actionToNode := by
  set g1 := getNodeG (getNodeG g a) b with hg1
  have hequiv : MapEquiv g1.actionToNode g.actionToNode :=
    (getNodeG_equiv (getNodeG g a) b).trans (getNodeG_equiv g a)
  have hwf1 : WFmap g1.actionToNode := WFmap_congr hequiv.symm h
  have hrb1 : g1.rollbackvector = g.rollbackvector := by
    rw [hg1, getNodeG_rollbackvector, getNodeG_rollbackvector]
  have hrmw1 : g1.rmwrollbackvector = g.rmwrollbackvector := by
    rw [hg1, getNodeG_rmwrollbackvector, getNodeG_rmwrollbackvector]
  have hold1 : g1.oldCycles = g.oldCycles := by
    rw [hg1, getNodeG_oldCycles, getNodeG_oldCycles]
  -- the setRMW stage
  obtain ⟨r0, hrb2, hrmw2, hold2, hwf2, hundo2⟩ := setRMWAndLog_spec g1 a b hwf1
  set g2 := setRMWAndLog g1 a b with hg2def
  -- the transfer loop
  obtain ⟨d3, hrb3, hrmw3, hold3, hwf3, hundo3⟩ :=
    transferLoop_spec (getN g2.actionToNode a).edges g2 b hwf2
  set g3 := (getN g2.actionToNode a).edges.foldl
    (fun g t => if t = b then g else insertAndLog g b t) g2 with hg3
  -- the final addEdge(fromnode, rmwnode)
  obtain ⟨d4, hrb4, hrmw4, hold4, hwf4, hundo4⟩ := addEdgeNodes_spec g3 a b hwf3
  have hfinal : addRMWEdge g a b = addEdgeNodes g3 a b := by
    rw [addRMWEdge]
  refine ⟨d3 ++ d4, r0, ?_, ?_, ?_, ?_, ?_⟩
  · rw [hfinal, hrb4, hrb3, hrb2, hrb1, List.append_assoc]
  · rw [hfinal, hrmw4, hrmw3, hrmw2, hrmw1]
  · rw [hfinal, hold4, hold3, hold2, hold1]
  · rw [hfinal]
    exact hwf4
  · rw [hfinal]
    have hu34 : MapEquiv (popAll (d3 ++ d4) (addEdgeNodes g3 a b).actionToNode)
        g2.actionToNode := pop_undo_compose hundo4 hundo3
    have hstep : MapEquiv
        (clearAll r0 (popAll (d3 ++ d4) (addEdgeNodes g3 a b).actionToNode))
        (clearAll r0 g2.actionToNode) := clearAll_congr hu34 r0
    exact (hstep.trans hundo2).trans hequiv

theorem applyOp_spec (g : CycleGraph) (op : Op) (h : WFmap g.actionToNode) :
    ∃ d r : List NodeId,
      (applyOp g op).rollbackvector = g.rollbackvector ++ d ∧
      (applyOp g op).rmwrollbackvector = g.rmwrollbackvector ++ r ∧
      (applyOp g op).oldCycles = g.oldCycles ∧
      WFmap (applyOp g op).actionToNode ∧
      MapEquiv (clearAll r (popAll d (applyOp g op).actionToNode))
        g.actionToNode := by
  cases op with
  | edge a b =>
      obtain ⟨d, hrb, hrmw, hold, hwf, hundo⟩ := addEdge_spec g a b h
      exact ⟨d, [], hrb, by simpa using hrmw, hold, hwf, hundo⟩
  | rmw a b => exact addRMWEdge_spec g a b h

theorem applyOps_spec (ops : List Op) (g : CycleGraph) (h : WFmap g.actionToNode) :
    ∃ d r : List NodeId,
      (applyOps g ops).rollbackvector = g.rollbackvector ++ d ∧
      (applyOps g ops).rmwrollbackvector = g.rmwrollbackvector ++ r ∧
      (applyOps g ops).oldCycles = g.oldCycles ∧
      WFmap (applyOps g ops).actionToNode ∧
      MapEquiv (clearAll r (popAll d (applyOps g ops).actionToNode))
        g.actionToNode := by
  induction ops generalizing g with
  | nil => exact ⟨[], [], by simp [applyOps], by simp [applyOps], rfl, h, MapEquiv.rfl _⟩
  | cons op rest ih =>
      obtain ⟨d1, r1, hrb1, hrmw1, hold1, hwf1, hundo1⟩ := applyOp_spec g op h
      obtain ⟨d2, r2, hrb2, hrmw2, hold2, hwf2, hundo2⟩ := ih (applyOp g op) hwf1
      have hstep : applyOps g (op :: rest) = applyOps (applyOp g op) rest := rfl
      refine ⟨d1 ++ d2, r1 ++ r2, ?_, ?_, ?_, ?_, ?_⟩
      · rw [hstep, hrb2, hrb1, List.append_assoc]
      · rw [hstep, hrmw2, hrmw1, List.append_assoc]
      · rw [hstep, hold2, hold1]
      · rw [hstep]
        exact hwf2
      · rw [hstep]
        exact undo_compose hundo2 hundo1

theorem rollbackChanges_actionToNode (g : CycleGraph) :
    (rollbackChanges g).actionToNode =
      clearAll g.rmwrollbackvector (popAll g.rollbackvector g.actionToNode) := rfl

theorem popAll_reverse (l : List NodeId) (m : NodeMap) :
    MapEquiv (popAll l m) (popAll l.reverse m) := by
  induction l generalizing m with
  | nil => exact MapEquiv.rfl _
  | cons a rest ih =>
      have h1 : popAll (a :: rest) m = popAll rest (popEdge m a) := rfl
      have h2 : (a :: rest).reverse = rest.reverse ++ [a] := by simp
      rw [h1, h2, popAll_append]
      have h3 : popAll [a] (popAll rest.reverse m) =
          popEdge (popAll rest.reverse m) a := rfl
      rw [h3]
      exact (ih (popEdge m a)).trans (popEdge_popAll_comm rest.reverse m a).symm

theorem WF_popAll {m : NodeMap} (h : WFmap m) (l : List NodeId) :
    WFmap (popAll l m) := by
  induction l generalizing m with
  | nil => exact h
  | cons a rest ih => exact ih (WF_popEdge h a)

theorem WF_clearAll {m : NodeMap} (h : WFmap m) (l : List NodeId) :
    WFmap (clearAll l m) := by
  induction l generalizing m with
  | nil => exact h
  | cons a rest ih => exact ih (WF_clearRMW h a)

theorem rollbackChanges_hasCycles (g : CycleGraph) :
    (rollbackChanges g).hasCycles = g.oldCycles := rfl

theorem rollbackChanges_rollbackvector (g : CycleGraph) :
    (rollbackChanges g).rollbackvector = [] := rfl

theorem rollbackChanges_rmwrollbackvector (g : CycleGraph) :
    (rollbackChanges g).rmwrollbackvector = [] := rfl

/-! ## Claim theorems -/

/-- C1: for any sequence of addEdge/addRMWEdge calls performed between
startChanges and rollbackChanges, rollbackChanges restores the graph
exactly: every node's edge list and back-edge list, every node's RMW link,
and the hasCycles flag equal their values at the matching startChanges, and
both rollback logs are empty afterwards.  (Stated for any structurally
well-formed start state; well-formedness holds along every execution by the
preservation theorem for C8.) -/
theorem claim_C1_rollback_exact (g : CycleGraph) (ops : List Op)
    (hwf : WFG g) (hstart : startChangesOK g) :
    (∀ n, edgesOf (rollbackChanges (applyOps g ops)) n = edgesOf g n) ∧
    (∀ n, backEdgesOf (rollbackChanges (applyOps g ops)) n = backEdgesOf g n) ∧
    (∀ n, rmwOf (rollbackChanges (applyOps g ops)) n = rmwOf g n) ∧
    (rollbackChanges (applyOps g ops)).hasCycles = g.hasCycles ∧
    (rollbackChanges (applyOps g ops)).rollbackvector = [] ∧
    (rollbackChanges (applyOps g ops)).rmwrollbackvector = [] := by
  obtain ⟨hrb0, hrmw0, hold0⟩ := hstart
  obtain ⟨d, r, hrb, hrmw, hold, hwf', hundo⟩ := applyOps_spec ops g hwf
  have hrb' : (applyOps g ops).rollbackvector = d := by
    rw [hrb, hrb0, List.nil_append]
  have hrmw' : (applyOps g ops).rmwrollbackvector = r := by
    rw [hrmw, hrmw0, List.nil_append]
  have hmap : MapEquiv (rollbackChanges (applyOps g ops)).actionToNode
      g.actionToNode := by
    rw [rollbackChanges_actionToNode, hrb', hrmw']
    exact hundo
  refine ⟨?_, ?_, ?_, ?_, rfl, rfl⟩
  · intro n
    unfold edgesOf
    rw [hmap n]
  · intro n
    unfold backEdgesOf
    rw [hmap n]
  · intro n
    unfold rmwOf
    rw [hmap n]
  · rw [rollbackChanges_hasCycles, hold, hold0]

/-- Witness for C1 at a concrete transaction from the initial graph. -/
theorem claim_C1_witness :
    WFG CycleGraph.init ∧ startChangesOK CycleGraph.init ∧
    edgesOf (rollbackChanges (applyOps CycleGraph.init
      [Op.edge 0 1, Op.rmw 0 2])) 0 = edgesOf CycleGraph.init 0 ∧
    (rollbackChanges (applyOps CycleGraph.init
      [Op.edge 0 1, Op.rmw 0 2])).hasCycles = CycleGraph.init.hasCycles := by
  have hwf : WFG CycleGraph.init := WFmap_nil
  have hstart : startChangesOK CycleGraph.init := ⟨rfl, rfl, rfl⟩
  have happ := claim_C1_rollback_exact CycleGraph.init
    [Op.edge 0 1, Op.rmw 0 2] hwf hstart
  exact ⟨hwf, hstart, happ.1 0, happ.2.2.2.1⟩

/-- C9: rollbackChanges (which walks `rollbackvector` front to back) produces
the same graph as the specified procedure that pops the logged edges in
reverse insertion order: the pops of distinct log entries commute, and the
pops of equal entries are literally the same operation. -/
theorem claim_C9_rollback_order (g : CycleGraph) :
    (∀ n, edgesOf (rollbackChanges g) n = edgesOf (rollbackChangesSpec g) n) ∧
    (∀ n, backEdgesOf (rollbackChanges g) n = backEdgesOf (rollbackChangesSpec g) n) ∧
    (∀ n, rmwOf (rollbackChanges g) n = rmwOf (rollbackChangesSpec g) n) ∧
    (rollbackChanges g).hasCycles = (rollbackChangesSpec g).hasCycles ∧
    (rollbackChanges g).rollbackvector = (rollbackChangesSpec g).rollbackvector ∧
    (rollbackChanges g).rmwrollbackvector = (rollbackChangesSpec g).rmwrollbackvector := by
  have hmap : MapEquiv (rollbackChanges g).actionToNode
      (rollbackChangesSpec g).actionToNode := by
    rw [rollbackChanges_actionToNode]
    have hspec : (rollbackChangesSpec g).actionToNode =
        clearAll g.rmwrollbackvector
          (popAll g.rollbackvector.reverse g.actionToNode) := rfl
    rw [hspec]
    exact clearAll_congr (popAll_reverse g.rollbackvector g.actionToNode)
      g.rmwrollbackvector
  refine ⟨?_, ?_, ?_, rfl, rfl, rfl⟩
  · intro n
    unfold edgesOf
    rw [hmap n]
  · intro n
    unfold backEdgesOf
    rw [hmap n]
  · intro n
    unfold rmwOf
    rw [hmap n]

/-- C8: in every structurally well-formed graph state, membership in `edges`
and `back_edges` are mutually inverse, and well-formedness is preserved by
addEdge, addRMWEdge and rollbackChanges, as well as by every single edge pop
and RMW clear, so the mutual-inverse relation also holds at every
intermediate state during a rollback. -/
theorem claim_C8_inverse_consistency (g : CycleGraph) (hwf : WFG g) :
    (∀ a b, b ∈ edgesOf g a ↔ a ∈ backEdgesOf g b) ∧
    (∀ x y, WFG (addEdge g x y)) ∧
    (∀ x y, WFG (addRMWEdge g x y)) ∧
    WFG (rollbackChanges g) ∧
    (∀ n, WFmap (popEdge g.actionToNode n)) ∧
    (∀ n, WFmap (clearRMW g.actionToNode n)) := by
  refine ⟨?_, ?_, ?_, ?_, ?_, ?_⟩
  · intro a b
    have h := hwf a b
    unfold edgesOf backEdgesOf
    rw [← List.count_pos_iff, ← List.count_pos_iff, h.2]
  · intro x y
    obtain ⟨d, _, _, _, hwf', _⟩ := addEdge_spec g x y hwf
    exact hwf'
  · intro x y
    obtain ⟨d, r, _, _, _, hwf', _⟩ := addRMWEdge_spec g x y hwf
    exact hwf'
  · show WFmap (rollbackChanges g).actionToNode
    rw [rollbackChanges_actionToNode]
    exact WF_clearAll (WF_popAll hwf g.rollbackvector) g.rmwrollbackvector
  · exact fun n => WF_popEdge hwf n
  · exact fun n => WF_clearRMW hwf n

/-- Witness for C8 at a concrete well-formed state. -/
theorem claim_C8_witness :
    WFG (addEdge CycleGraph.init 0 1) ∧
    (1 ∈ edgesOf (addEdge CycleGraph.init 0 1) 0 ↔
      0 ∈ backEdgesOf (addEdge CycleGraph.init 0 1) 1) := by
  have hwf0 : WFG CycleGraph.init := WFmap_nil
  have hwf : WFG (addEdge CycleGraph.init 0 1) :=
    (claim_C8_inverse_consistency CycleGraph.init hwf0).2.1 0 1
  exact ⟨hwf, (claim_C8_inverse_consistency (addEdge CycleGraph.init 0 1) hwf).1 0 1⟩

/-! ## Simple field-preservation and monotonicity lemmas -/

theorem insertAndLog_rmwrollbackvector (g : CycleGraph) (x y : NodeId) :
    (insertAndLog g x y).rmwrollbackvector = g.rmwrollbackvector := rfl

theorem insertAndLog_hasCycles (g : CycleGraph) (x y : NodeId) :
    (insertAndLog g x y).hasCycles = g.hasCycles := rfl

theorem insertAndLog_actionToNode (g : CycleGraph) (x y : NodeId) :
    (insertAndLog g x y).actionToNode = (nodeAddEdge g.actionToNode x y).2 := rfl

theorem cycleCheck_of_true {g : CycleGraph} (h : g.hasCycles = true)
    (src tgt : NodeId) : cycleCheck g src tgt = g := by
  simp [cycleCheck, h]

theorem cycleCheck_hasCycles_mono {g : CycleGraph} (h : g.hasCycles = true)
    (src tgt : NodeId) : (cycleCheck g src tgt).hasCycles = true := by
  rw [cycleCheck_of_true h]
  exact h

theorem addEdgeNodes_rmwrollbackvector (g : CycleGraph) (a b : NodeId) :
    (addEdgeNodes g a b).rmwrollbackvector = g.rmwrollbackvector := by
  simp only [addEdgeNodes]
  split
  · rw [insertAndLog_rmwrollbackvector, cycleCheck_rmwrollbackvector]
  · split
    · rw [insertAndLog_rmwrollbackvector, cycleCheck_rmwrollbackvector]
    · rw [insertAndLog_rmwrollbackvector, cycleCheck_rmwrollbackvector,
        insertAndLog_rmwrollbackvector, cycleCheck_rmwrollbackvector]

theorem addEdgeNodes_hasCycles_mono {g : CycleGraph} (h : g.hasCycles = true)
    (a b : NodeId) : (addEdgeNodes g a b).hasCycles = true := by
  have h2 : (insertAndLog (cycleCheck g b a) a b).hasCycles = true := by
    rw [insertAndLog_hasCycles, cycleCheck_of_true h]
    exact h
  simp only [addEdgeNodes]
  split
  · exact h2
  · split
    · exact h2
    · rw [insertAndLog_hasCycles, cycleCheck_of_true h2]
      exact h2

theorem setRMWAndLog_of_some {g : CycleGraph} {a r : NodeId}
    (hprior : (getN g.actionToNode a).hasRMW = some r) (b : NodeId) :
    setRMWAndLog g a b = { g with hasCycles := true } := by
  simp [setRMWAndLog, nodeSetRMW_of_some hprior]

theorem setRMWAndLog_hasCycles_mono {g : CycleGraph} (h : g.hasCycles = true)
    (a b : NodeId) : (setRMWAndLog g a b).hasCycles = true := by
  simp only [setRMWAndLog]
  split
  · rfl
  · exact h

theorem transferLoop_rmwrollbackvector (ts : List NodeId) (g : CycleGraph)
    (rmw : NodeId) :
    (ts.foldl (fun g t => if t = rmw then g else insertAndLog g rmw t) g).rmwrollbackvector
      = g.rmwrollbackvector := by
  induction ts generalizing g with
  | nil => rfl
  | cons t rest ih =>
      by_cases ht : t = rmw
      · simpa [ht] using ih g
      · rw [List.foldl_cons, if_neg ht, ih, insertAndLog_rmwrollbackvector]

theorem transferLoop_hasCycles (ts : List NodeId) (g : CycleGraph)
    (rmw : NodeId) :
    (ts.foldl (fun g t => if t = rmw then g else insertAndLog g rmw t) g).hasCycles
      = g.hasCycles := by
  induction ts generalizing g with
  | nil => rfl
  | cons t rest ih =>
      by_cases ht : t = rmw
      · simpa [ht] using ih g
      · rw [List.foldl_cons, if_neg ht, ih, insertAndLog_hasCycles]

theorem addRMWEdge_hasCycles_mono {g : CycleGraph} (h : g.hasCycles = true)
    (a b : NodeId) : (addRMWEdge g a b).hasCycles = true := by
  have h1 : (getNodeG (getNodeG g a) b).hasCycles = true := by
    rw [getNodeG_hasCycles, getNodeG_hasCycles]
    exact h
  have h2 : (setRMWAndLog (getNodeG (getNodeG g a) b) a b).hasCycles = true :=
    setRMWAndLog_hasCycles_mono h1 a b
  have h3 : ((getN (setRMWAndLog (getNodeG (getNodeG g a) b) a b).actionToNode a).edges.foldl
      (fun g t => if t = b then g else insertAndLog g b t)
      (setRMWAndLog (getNodeG (getNodeG g a) b) a b)).hasCycles = true := by
    rw [transferLoop_hasCycles]
    exact h2
  exact addEdgeNodes_hasCycles_mono h3 a b

theorem addEdge_hasCycles_mono {g : CycleGraph} (h : g.hasCycles = true)
    (a b : NodeId) : (addEdge g a b).hasCycles = true := by
  have h1 : (getNodeG (getNodeG g a) b).hasCycles = true := by
    rw [getNodeG_hasCycles, getNodeG_hasCycles]
    exact h
  exact addEdgeNodes_hasCycles_mono h1 a b

theorem applyOps_hasCycles_mono {g : CycleGraph} (h : g.hasCycles = true)
    (ops : List Op) : (applyOps g ops).hasCycles = true := by
  induction ops generalizing g with
  | nil => exact h
  | cons op rest ih =>
      have hstep : (applyOp g op).hasCycles = true := by
        cases op with
        | edge a b => exact addEdge_hasCycles_mono h a b
        | rmw a b => exact addRMWEdge_hasCycles_mono h a b
      exact ih hstep

/-- C3 counterexample: a node already linked to RMW reader 1 keeps that link
when `setRMW 2` is called on it; the claim's "sets the link unconditionally"
fails. -/
theorem claim_C3_counterexample :
    (nodeSetRMW (nodeSetRMW [] 0 1).2 0 2).1 = true ∧
    (getN (nodeSetRMW (nodeSetRMW [] 0 1).2 0 2).2 0).hasRMW = some 1 ∧
    ¬(getN (nodeSetRMW (nodeSetRMW [] 0 1).2 0 2).2 0).hasRMW = some 2 := by
  decide

/-- C3 (amended): CycleNode::setRMW returns whether an RMW link already
existed, and sets the link only when none existed; a pre-existing link is
retained unchanged (the source returns early without writing in that
case). -/
theorem claim_C3_setRMW (m : NodeMap) (a n : NodeId) :
    (nodeSetRMW m a n).1 = (getN m a).hasRMW.isSome ∧
    (getN (nodeSetRMW m a n).2 a).hasRMW =
      (if (getN m a).hasRMW.isSome then (getN m a).hasRMW else some n) := by
  refine ⟨nodeSetRMW_fst m a n, ?_⟩
  cases h : (getN m a).hasRMW with
  | none => simp [rmw_nodeSetRMW_of_none h, h]
  | some r => simp [nodeSetRMW_of_some h, h]

/-- C4: the action-level checkReachable guards against absent actions and
answers false, but checkPromise does not: on an action with no node the
source pushes the NULL result of `actionToNode.get` onto its queue and
dereferences it (`node->getAction()`), modelled by the `none` result.
Evaluation at the failing input (an empty graph and action 0). -/
theorem claim_C4_absent_identities :
    checkPromise CycleGraph.init (fun _ => 0) ⟨fun _ => true⟩ 0 = none ∧
    checkReachableActions CycleGraph.init 0 1 = false ∧
    checkReachableActions CycleGraph.init 0 0 = false ∧
    checkReachableActions (addEdge CycleGraph.init 0 1) 0 5 = false := by
  decide

/-- C10: checkReachable and checkPromise are pure queries with respect to
the graph: the graph component (node table, logs, flags) is returned
unchanged, and the reusable discovered scratch table is the only state they
write; because it is reset at the start of every call, the result is
independent of the incoming discovered table. -/
theorem claim_C10_query_frame (s : CheckerState) (a b f : NodeId)
    (tid : NodeId → Nat) (p : Promise) :
    (checkReachableS s a b).2.graph = s.graph ∧
    (checkPromiseS s tid p f).2.graph = s.graph ∧
    (∀ d, checkReachableS { s with discovered := d } a b = checkReachableS s a b) ∧
    (∀ d, checkPromiseS { s with discovered := d } tid p f = checkPromiseS s tid p f) := by
  refine ⟨rfl, ?_, fun d => rfl, fun d => ?_⟩
  · unfold checkPromiseS
    cases h : mapGet s.graph.actionToNode f <;> rfl
  · unfold checkPromiseS
    cases h : mapGet s.graph.actionToNode f <;> rfl

/-! ## Edge-membership monotonicity (edges are only ever appended) -/

theorem mem_edges_nodeAddEdge_mono {m : NodeMap} {y k : NodeId}
    (h : y ∈ (getN m k).edges) (a b : NodeId) :
    y ∈ (getN (nodeAddEdge m a b).2 k).edges := by
  rw [edges_nodeAddEdge]
  split
  · exact List.mem_append_left _ h
  · exact h

theorem mem_nodeAddEdge_self (m : NodeMap) (a b : NodeId) :
    b ∈ (getN (nodeAddEdge m a b).2 a).edges := by
  by_cases hmem : b ∈ (getN m a).edges
  · rw [nodeAddEdge_of_mem hmem]
    exact hmem
  · rw [edges_nodeAddEdge, if_pos ⟨rfl, hmem⟩]
    exact List.mem_append_right _ (by simp)

theorem edgesOf_cycleCheck (g : CycleGraph) (s t k : NodeId) :
    edgesOf (cycleCheck g s t) k = edgesOf g k := by
  unfold edgesOf
  rw [cycleCheck_actionToNode]

theorem edgesOf_getNodeG (g : CycleGraph) (j k : NodeId) :
    edgesOf (getNodeG g j) k = edgesOf g k := by
  unfold edgesOf
  rw [getN_getNodeG]

theorem edgesOf_setRMWAndLog (g : CycleGraph) (a b k : NodeId) :
    edgesOf (setRMWAndLog g a b) k = edgesOf g k := by
  simp only [setRMWAndLog]
  split <;> exact edges_nodeSetRMW g.actionToNode a b k

theorem rmwOf_getNodeG (g : CycleGraph) (j k : NodeId) :
    rmwOf (getNodeG g j) k = rmwOf g k := by
  unfold rmwOf
  rw [getN_getNodeG]

theorem mem_edgesOf_insertAndLog_mono {g : CycleGraph} {y k : NodeId}
    (h : y ∈ edgesOf g k) (x z : NodeId) :
    y ∈ edgesOf (insertAndLog g x z) k :=
  mem_edges_nodeAddEdge_mono h x z

theorem insertAndLog_self_mem (g : CycleGraph) (x z : NodeId) :
    z ∈ edgesOf (insertAndLog g x z) x :=
  mem_nodeAddEdge_self g.actionToNode x z

theorem mem_edgesOf_addEdgeNodes_mono {g : CycleGraph} {y k : NodeId}
    (h : y ∈ edgesOf g k) (a b : NodeId) :
    y ∈ edgesOf (addEdgeNodes g a b) k := by
  have h2 : y ∈ edgesOf (insertAndLog (cycleCheck g b a) a b) k := by
    refine mem_edgesOf_insertAndLog_mono ?_ a b
    rw [edgesOf_cycleCheck]
    exact h
  simp only [addEdgeNodes]
  split
  · exact h2
  · split
    · exact h2
    · refine mem_edgesOf_insertAndLog_mono ?_ _ b
      rw [edgesOf_cycleCheck]
      exact h2

theorem addEdgeNodes_self_mem (g : CycleGraph) (a b : NodeId) :
    b ∈ edgesOf (addEdgeNodes g a b) a := by
  have h2 : b ∈ edgesOf (insertAndLog (cycleCheck g b a) a b) a :=
    insertAndLog_self_mem (cycleCheck g b a) a b
  simp only [addEdgeNodes]
  split
  · exact h2
  · split
    · exact h2
    · refine mem_edgesOf_insertAndLog_mono ?_ _ b
      rw [edgesOf_cycleCheck]
      exact h2

theorem transferLoop_mem_mono (ts : List NodeId) {g : CycleGraph}
    {y k : NodeId} (h : y ∈ edgesOf g k) (rmw : NodeId) :
    y ∈ edgesOf (ts.foldl (fun g t => if t = rmw then g else insertAndLog g rmw t) g) k := by
  induction ts generalizing g with
  | nil => exact h
  | cons t rest ih =>
      rw [List.foldl_cons]
      by_cases ht : t = rmw
      · rw [if_pos ht]
        exact ih h
      · rw [if_neg ht]
        exact ih (mem_edgesOf_insertAndLog_mono h rmw t)

theorem transferLoop_targets (ts : List NodeId) (g : CycleGraph) (rmw : NodeId) :
    ∀ t ∈ ts, t ≠ rmw →
      t ∈ edgesOf (ts.foldl (fun g t => if t = rmw then g else insertAndLog g rmw t) g) rmw := by
  induction ts generalizing g with
  | nil => intro t ht; simp at ht
  | cons t0 rest ih =>
      intro t ht hne
      rw [List.foldl_cons]
      rcases List.mem_cons.mp ht with h0 | hrest
      · subst h0
        rw [if_neg hne]
        exact transferLoop_mem_mono rest (insertAndLog_self_mem g rmw t) rmw
      · by_cases h0 : t0 = rmw
        · rw [if_pos h0]
          exact ih g t hrest hne
        · rw [if_neg h0]
          exact ih (insertAndLog g rmw t0) t hrest hne

/-- C5: after addRMWEdge(from, rmw), every target `t` that `from` pointed to
before the call, other than the rmw node itself, is a target of the rmw
node, and the edge from `from` to the rmw node exists. -/
theorem claim_C5_rmw_fusion (g : CycleGraph) (a r t : NodeId)
    (ht : t ∈ edgesOf g a) (hne : t ≠ r) :
    t ∈ edgesOf (addRMWEdge g a r) r ∧ r ∈ edgesOf (addRMWEdge g a r) a := by
  have hts : t ∈ (getN (setRMWAndLog (getNodeG (getNodeG g a) r) a r).actionToNode a).edges := by
    have h1 : t ∈ edgesOf (setRMWAndLog (getNodeG (getNodeG g a) r) a r) a := by
      rw [edgesOf_setRMWAndLog, edgesOf_getNodeG, edgesOf_getNodeG]
      exact ht
    exact h1
  have hdef : addRMWEdge g a r =
      addEdgeNodes
        ((getN (setRMWAndLog (getNodeG (getNodeG g a) r) a r).actionToNode a).edges.foldl
          (fun g t => if t = r then g else insertAndLog g r t)
          (setRMWAndLog (getNodeG (getNodeG g a) r) a r)) a r := rfl
  constructor
  · rw [hdef]
    refine mem_edgesOf_addEdgeNodes_mono ?_ a r
    exact transferLoop_targets _ _ r t hts hne
  · rw [hdef]
    exact addEdgeNodes_self_mem _ a r

/-- Witness for C5 at a concrete graph where node 0 already points at 1. -/
theorem claim_C5_witness :
    1 ∈ edgesOf (addEdge CycleGraph.init 0 1) 0 ∧ (1 : NodeId) ≠ 2 ∧
    1 ∈ edgesOf (addRMWEdge (addEdge CycleGraph.init 0 1) 0 2) 2 ∧
    2 ∈ edgesOf (addRMWEdge (addEdge CycleGraph.init 0 1) 0 2) 0 := by
  have h1 : 1 ∈ edgesOf (addEdge CycleGraph.init 0 1) 0 := by decide
  have h2 : (1 : NodeId) ≠ 2 := by decide
  have h := claim_C5_rmw_fusion (addEdge CycleGraph.init 0 1) 0 2 1 h1 h2
  exact ⟨h1, h2, h.1, h.2⟩

/-- C6: when addRMWEdge finds a pre-existing RMW link on the from node
(setRMW reports true), the sticky hasCycles flag is set and no entry is
appended to rmwrollbackvector for that call; when there was no prior link,
the from node is logged.  The operation is a total function of the state: it
reports the violation only through the flag and never interrupts control
flow. -/
theorem claim_C6_rmw_violation (g : CycleGraph) (a b : NodeId) :
    ((rmwOf g a).isSome = true →
      (addRMWEdge g a b).hasCycles = true ∧
      (addRMWEdge g a b).rmwrollbackvector = g.rmwrollbackvector) ∧
    ((rmwOf g a).isSome = false →
      (addRMWEdge g a b).rmwrollbackvector = g.rmwrollbackvector ++ [a]) := by
  have hrmw1 : rmwOf (getNodeG (getNodeG g a) b) a = rmwOf g a := by
    rw [rmwOf_getNodeG, rmwOf_getNodeG]
  have hdef : addRMWEdge g a b =
      addEdgeNodes
        ((getN (setRMWAndLog (getNodeG (getNodeG g a) b) a b).actionToNode a).edges.foldl
          (fun g t => if t = b then g else insertAndLog g b t)
          (setRMWAndLog (getNodeG (getNodeG g a) b) a b)) a b := rfl
  constructor
  · intro hsome
    obtain ⟨r0, hr0⟩ := Option.isSome_iff_exists.mp hsome
    have hr0' : (getN (getNodeG (getNodeG g a) b).actionToNode a).hasRMW = some r0 :=
      hrmw1.trans hr0
    have hset : setRMWAndLog (getNodeG (getNodeG g a) b) a b =
        { getNodeG (getNodeG g a) b with hasCycles := true } :=
      setRMWAndLog_of_some hr0' b
    constructor
    · rw [hdef]
      apply addEdgeNodes_hasCycles_mono
      rw [transferLoop_hasCycles, hset]
    · rw [hdef, addEdgeNodes_rmwrollbackvector, transferLoop_rmwrollbackvector, hset,
        getNodeG_rmwrollbackvector, getNodeG_rmwrollbackvector]
  · intro hnone
    have hprior : (getN (getNodeG (getNodeG g a) b).actionToNode a).hasRMW = none := by
      have h1 : rmwOf (getNodeG (getNodeG g a) b) a = none :=
        hrmw1.trans (Option.not_isSome_iff_eq_none.mp (by rw [hnone]; simp))
      exact h1
    have hfst : (nodeSetRMW (getNodeG (getNodeG g a) b).actionToNode a b).1 = false := by
      rw [nodeSetRMW_fst, hprior]
      rfl
    have hlog : (setRMWAndLog (getNodeG (getNodeG g a) b) a b).rmwrollbackvector =
        (getNodeG (getNodeG g a) b).rmwrollbackvector ++ [a] := by
      simp [setRMWAndLog, hfst]
    rw [hdef, addEdgeNodes_rmwrollbackvector, transferLoop_rmwrollbackvector, hlog,
      getNodeG_rmwrollbackvector, getNodeG_rmwrollbackvector]

/-- Witness for C6 in both branches: a node with a prior RMW link and a node
without one. -/
theorem claim_C6_witness :
    (rmwOf (addRMWEdge CycleGraph.init 0 1) 0).isSome = true ∧
    (addRMWEdge (addRMWEdge CycleGraph.init 0 1) 0 2).hasCycles = true ∧
    (addRMWEdge (addRMWEdge CycleGraph.init 0 1) 0 2).rmwrollbackvector =
      (addRMWEdge CycleGraph.init 0 1).rmwrollbackvector ∧
    (rmwOf CycleGraph.init 0).isSome = false ∧
    (addRMWEdge CycleGraph.init 0 1).rmwrollbackvector =
      CycleGraph.init.rmwrollbackvector ++ [0] := by
  have h1 : (rmwOf (addRMWEdge CycleGraph.init 0 1) 0).isSome = true := by decide
  have h2 : (rmwOf CycleGraph.init 0).isSome = false := by decide
  have ha := (claim_C6_rmw_violation (addRMWEdge CycleGraph.init 0 1) 0 2).1 h1
  have hb := (claim_C6_rmw_violation CycleGraph.init 0 1).2 h2
  exact ⟨h1, ha.1, ha.2, h2, hb⟩

/-! ## Correctness of the worklist reachability search -/

theorem pushSuccs_disc_mono (es : List NodeId) (stack disc : List NodeId) :
    ∀ x ∈ disc, x ∈ (pushSuccs es stack disc).2 := by
  induction es generalizing stack disc with
  | nil => intro x hx; exact hx
  | cons n rest ih =>
      intro x hx
      by_cases hn : n ∈ disc
      · rw [pushSuccs, if_pos hn]
        exact ih stack disc x hx
      · rw [pushSuccs, if_neg hn]
        exact ih (n :: stack) (n :: disc) x (List.mem_cons_of_mem n hx)

theorem pushSuccs_disc_src (es : List NodeId) (stack disc : List NodeId) :
    ∀ x ∈ (pushSuccs es stack disc).2, x ∈ disc ∨ x ∈ es := by
  induction es generalizing stack disc with
  | nil => intro x hx; exact Or.inl hx
  | cons n rest ih =>
      intro x hx
      by_cases hn : n ∈ disc
      · rw [pushSuccs, if_pos hn] at hx
        rcases ih stack disc x hx with h | h
        · exact Or.inl h
        · exact Or.inr (List.mem_cons_of_mem n h)
      · rw [pushSuccs, if_neg hn] at hx
        rcases ih (n :: stack) (n :: disc) x hx with h | h
        · rcases List.mem_cons.mp h with h' | h'
          · exact Or.inr (h' ▸ List.mem_cons_self n rest)
          · exact Or.inl h'
        · exact Or.inr (List.mem_cons_of_mem n h)

theorem pushSuccs_es_subset (es : List NodeId) (stack disc : List NodeId) :
    ∀ x ∈ es, x ∈ (pushSuccs es stack disc).2 := by
  induction es generalizing stack disc with
  | nil => intro x hx; simp at hx
  | cons n rest ih =>
      intro x hx
      by_cases hn : n ∈ disc
      · rw [pushSuccs, if_pos hn]
        rcases List.mem_cons.mp hx with h | h
        · exact pushSuccs_disc_mono rest stack disc x (h ▸ hn)
        · exact ih stack disc x h
      · rw [pushSuccs, if_neg hn]
        rcases List.mem_cons.mp hx with h | h
        · exact pushSuccs_disc_mono rest (n :: stack) (n :: disc) x
            (h ▸ List.mem_cons_self n disc)
        · exact ih (n :: stack) (n :: disc) x h

theorem pushSuccs_stack_mono (es : List NodeId) (stack disc : List NodeId) :
    ∀ x ∈ stack, x ∈ (pushSuccs es stack disc).1 := by
  induction es generalizing stack disc with
  | nil => intro x hx; exact hx
  | cons n rest ih =>
      intro x hx
      by_cases hn : n ∈ disc
      · rw [pushSuccs, if_pos hn]
        exact ih stack disc x hx
      · rw [pushSuccs, if_neg hn]
        exact ih (n :: stack) (n :: disc) x (List.mem_cons_of_mem n hx)

theorem pushSuccs_stack_sub_disc (es : List NodeId) (stack disc : List NodeId)
    (h : ∀ x ∈ stack, x ∈ disc) :
    ∀ x ∈ (pushSuccs es stack disc).1, x ∈ (pushSuccs es stack disc).2 := by
  induction es generalizing stack disc with
  | nil => exact h
  | cons n rest ih =>
      by_cases hn : n ∈ disc
      · rw [pushSuccs, if_pos hn]
        exact ih stack disc h
      · rw [pushSuccs, if_neg hn]
        refine ih (n :: stack) (n :: disc) ?_
        intro x hx
        rcases List.mem_cons.mp hx with h' | h'
        · exact h' ▸ List.mem_cons_self n disc
        · exact List.mem_cons_of_mem n (h x h')

theorem pushSuccs_new_in_stack (es : List NodeId) (stack disc : List NodeId) :
    ∀ x ∈ (pushSuccs es stack disc).2, x ∉ disc → x ∈ (pushSuccs es stack disc).1 := by
  induction es generalizing stack disc with
  | nil => intro x hx hnx; exact absurd hx hnx
  | cons n rest ih =>
      intro x hx hnx
      by_cases hn : n ∈ disc
      · rw [pushSuccs, if_pos hn] at hx ⊢
        exact ih stack disc x hx hnx
      · rw [pushSuccs, if_neg hn] at hx ⊢
        by_cases hxn : x = n
        · exact pushSuccs_stack_mono rest (n :: stack) (n :: disc) x
            (hxn ▸ List.mem_cons_self n stack)
        · exact ih (n :: stack) (n :: disc) x hx
            (fun hmem => by
              rcases List.mem_cons.mp hmem with h' | h'
              · exact hxn h'
              · exact hnx h')

theorem undisc_le (U disc : List NodeId) : undisc U disc ≤ U.length := by
  induction U with
  | nil => simp [undisc]
  | cons u rest ih =>
      rw [undisc]
      by_cases hu : u ∈ disc <;> simp [hu] <;> omega

theorem undisc_insert_le (U disc : List NodeId) (n : NodeId) :
    undisc U (n :: disc) ≤ undisc U disc := by
  induction U with
  | nil => simp [undisc]
  | cons u rest ih =>
      rw [undisc, undisc]
      by_cases hu : u ∈ disc
      · rw [if_pos (List.mem_cons_of_mem n hu), if_pos hu]
        omega
      · by_cases hun : u ∈ n :: disc <;> simp [hun, hu] <;> omega

theorem undisc_insert_lt (U disc : List NodeId) {n : NodeId}
    (hU : n ∈ U) (hd : n ∉ disc) :
    undisc U (n :: disc) < undisc U disc := by
  induction U with
  | nil => simp at hU
  | cons u rest ih =>
      rw [undisc, undisc]
      rcases List.mem_cons.mp hU with h | h
      · subst h
        rw [if_pos (List.mem_cons_self n disc), if_neg hd]
        have := undisc_insert_le rest disc n
        omega
      · have h1 := ih h
        by_cases hu : u ∈ disc
        · rw [if_pos (List.mem_cons_of_mem n hu), if_pos hu]
          omega
        · by_cases hun : u ∈ n :: disc <;> simp [hun, hu] <;> omega

theorem pushSuccs_measure (es : List NodeId) (stack disc : List NodeId)
    (U : List NodeId) (hU : ∀ x ∈ es, x ∈ U) :
    undisc U (pushSuccs es stack disc).2 + (pushSuccs es stack disc).1.length ≤
      undisc U disc + stack.length := by
  induction es generalizing stack disc with
  | nil => exact Nat.le_refl _
  | cons n rest ih =>
      by_cases hn : n ∈ disc
      · rw [pushSuccs, if_pos hn]
        exact ih stack disc (fun x hx => hU x (List.mem_cons_of_mem n hx))
      · rw [pushSuccs, if_neg hn]
        have h1 := ih (n :: stack) (n :: disc)
          (fun x hx => hU x (List.mem_cons_of_mem n hx))
        have h2 := undisc_insert_lt U disc (hU n (List.mem_cons_self n rest)) hn
        simp only [List.length_cons] at h1
        omega

theorem reach_closed {m : NodeMap} {disc : List NodeId}
    (hclosed : ∀ x ∈ disc, ∀ y ∈ (getN m x).edges, y ∈ disc)
    {x y : NodeId} (hx : x ∈ disc) (hr : NodeReach m x y) : y ∈ disc := by
  induction hr with
  | refl => exact hx
  | tail _ e ih => exact hclosed _ ih _ e

theorem reachAux_sound (m : NodeMap) (a tgt : NodeId) :
    ∀ fuel stack disc,
      (∀ x ∈ stack, x ∈ disc) → (∀ x ∈ disc, NodeReach m a x) →
      (reachAux m tgt fuel stack disc).1 = true → NodeReach m a tgt := by
  intro fuel
  induction fuel with
  | zero =>
      intro stack disc _ _ hres
      simp [reachAux] at hres
  | succ n ih =>
      intro stack disc hsd hr hres
      cases stack with
      | nil => simp [reachAux] at hres
      | cons node rest =>
          by_cases heq : node = tgt
          · exact heq ▸ hr node (hsd node (List.mem_cons_self node rest))
          · rw [reachAux, if_neg heq] at hres
            refine ih _ _ ?_ ?_ hres
            · exact pushSuccs_stack_sub_disc _ rest disc
                (fun x hx => hsd x (List.mem_cons_of_mem node hx))
            · intro x hx
              rcases pushSuccs_disc_src _ rest disc x hx with h | h
              · exact hr x h
              · exact Relation.ReflTransGen.tail
                  (hr node (hsd node (List.mem_cons_self node rest))) h

theorem reachAux_complete (m : NodeMap) (tgt : NodeId) (U : List NodeId)
    (hUedges : ∀ x y, y ∈ (getN m x).edges → y ∈ U) :
    ∀ fuel stack disc,
      (∀ x ∈ stack, x ∈ disc) →
      (undisc U disc + stack.length + 1 ≤ fuel) →
      (∀ x ∈ disc, x ∉ stack → x ≠ tgt ∧ ∀ y ∈ (getN m x).edges, y ∈ disc) →
      (reachAux m tgt fuel stack disc).1 = false →
      ∀ x ∈ disc, ¬ NodeReach m x tgt := by
  intro fuel
  induction fuel with
  | zero =>
      intro stack disc _ hfuel _ _
      omega
  | succ n ih =>
      intro stack disc hsd hfuel hproc hres
      cases stack with
      | nil =>
          intro x hx hreach
          have hclosed : ∀ z ∈ disc, ∀ y ∈ (getN m z).edges, y ∈ disc :=
            fun z hz => (hproc z hz (List.not_mem_nil z)).2
          have htgt : tgt ∈ disc := reach_closed hclosed hx hreach
          exact (hproc tgt htgt (List.not_mem_nil tgt)).1 rfl
      | cons node rest =>
          by_cases heq : node = tgt
          · rw [reachAux, if_pos heq] at hres
            simp at hres
          · rw [reachAux, if_neg heq] at hres
            have hnext := ih (pushSuccs (getN m node).edges rest disc).1
              (pushSuccs (getN m node).edges rest disc).2
              (pushSuccs_stack_sub_disc _ rest disc
                (fun x hx => hsd x (List.mem_cons_of_mem node hx)))
              (by
                have hm := pushSuccs_measure (getN m node).edges rest disc U
                  (fun y hy => hUedges node y hy)
                simp only [List.length_cons] at hfuel
                omega)
              (by
                intro x hx hnx
                by_cases hxd : x ∈ disc
                · by_cases hxn : x = node
                  · subst hxn
                    exact ⟨heq, fun y hy => pushSuccs_es_subset _ rest disc y hy⟩
                  · have hxs : x ∉ node :: rest := by
                      intro hmem
                      rcases List.mem_cons.mp hmem with h' | h'
                      · exact hxn h'
                      · exact hnx (pushSuccs_stack_mono _ rest disc x h')
                    obtain ⟨h1, h2⟩ := hproc x hxd hxs
                    exact ⟨h1, fun y hy =>
                      pushSuccs_disc_mono _ rest disc y (h2 y hy)⟩
                · exact absurd (pushSuccs_new_in_stack _ rest disc x hx hxd) hnx)
              hres
            intro x hx
            exact hnext x (pushSuccs_disc_mono _ rest disc x hx)

theorem edges_subset_allTargets (m : NodeMap) :
    ∀ x y, y ∈ (getN m x).edges → y ∈ allTargets m := by
  intro x y hy
  unfold getN at hy
  cases h : mapGet m x with
  | none =>
      rw [h] at hy
      simp [CycleNode.fresh] at hy
  | some v =>
      rw [h] at hy
      simp only [Option.getD_some] at hy
      exact List.mem_flatMap.mpr ⟨(x, v), mapGet_mem m x v h, hy⟩

/-- The depth-first worklist search of the source computes exactly
reachability along recorded edges. -/
theorem checkReachableNodes_iff (m : NodeMap) (a tgt : NodeId) :
    checkReachableNodes m a tgt = true ↔ NodeReach m a tgt := by
  constructor
  · intro h
    refine reachAux_sound m a tgt _ [a] [a] (fun x hx => hx) ?_ h
    intro x hx
    rw [List.mem_singleton.mp hx]
    exact Relation.ReflTransGen.refl
  · intro hreach
    cases hres : checkReachableNodes m a tgt with
    | true => rfl
    | false =>
        exfalso
        have hU : ∀ x y, y ∈ (getN m x).edges → y ∈ a :: allTargets m :=
          fun x y hy => List.mem_cons_of_mem a (edges_subset_allTargets m x y hy)
        have hfuel : undisc (a :: allTargets m) [a] + 1 + 1 ≤ reachBound m a := by
          have h1 : undisc (a :: allTargets m) [a] = undisc (allTargets m) [a] := by
            rw [undisc]
            simp
          have h2 := undisc_le (allTargets m) [a]
          have h3 : reachBound m a = (allTargets m).length + 2 := by
            simp [reachBound]
          omega
        have hc := reachAux_complete m tgt (a :: allTargets m) hU (reachBound m a)
          [a] [a] (fun x hx => hx) hfuel
          (fun x hx hnx => absurd hx hnx) hres a (List.mem_singleton_self a)
        exact hc hreach

/-! ## Reachability under edge insertion -/

theorem edgeRel_nodeAddEdge (m : NodeMap) (a b x y : NodeId) :
    edgeRel (nodeAddEdge m a b).2 x y ↔ edgeRel m x y ∨ (x = a ∧ y = b) := by
  unfold edgeRel
  rw [edges_nodeAddEdge]
  by_cases hmem : b ∈ (getN m a).edges
  · rw [if_neg (by simp [hmem])]
    constructor
    · exact Or.inl
    · rintro (h | ⟨rfl, rfl⟩)
      · exact h
      · exact hmem
  · by_cases hx : x = a
    · subst hx
      rw [if_pos ⟨rfl, hmem⟩, List.mem_append, List.mem_singleton]
      constructor
      · rintro (h | h)
        · exact Or.inl h
        · exact Or.inr ⟨rfl, h⟩
      · rintro (h | ⟨-, rfl⟩)
        · exact Or.inl h
        · exact Or.inr rfl
    · rw [if_neg (by simp [hx])]
      constructor
      · exact Or.inl
      · rintro (h | ⟨h, -⟩)
        · exact h
        · exact absurd h hx

theorem rtg_congr {α : Type} {R S : α → α → Prop}
    (h : ∀ p q, R p q ↔ S p q) (x y : α) :
    Relation.ReflTransGen R x y ↔ Relation.ReflTransGen S x y :=
  ⟨Relation.ReflTransGen.mono (fun a b hab => (h a b).mp hab),
   Relation.ReflTransGen.mono (fun a b hab => (h a b).mpr hab)⟩

theorem nodeReach_congr {m1 m2 : NodeMap}
    (h : ∀ x y, edgeRel m1 x y ↔ edgeRel m2 x y) (x y : NodeId) :
    NodeReach m1 x y ↔ NodeReach m2 x y :=
  rtg_congr h x y

theorem nodeReach_mapEquiv {m1 m2 : NodeMap} (h : MapEquiv m1 m2) (x y : NodeId) :
    NodeReach m1 x y ↔ NodeReach m2 x y :=
  nodeReach_congr (fun p q => by unfold edgeRel; rw [h p]) x y

theorem rtg_union_single {α : Type} {R : α → α → Prop} {u v x : α}
    (h : ¬ Relation.ReflTransGen R x u) (y : α) :
    Relation.ReflTransGen (fun p q => R p q ∨ (p = u ∧ q = v)) x y ↔
      Relation.ReflTransGen R x y := by
  constructor
  · intro hr
    induction hr with
    | refl => exact Relation.ReflTransGen.refl
    | tail _ e ih =>
        rcases e with e | ⟨rfl, rfl⟩
        · exact ih.tail e
        · exact absurd ih h
  · intro hr
    exact hr.mono (fun p q hpq => Or.inl hpq)

/-- Adding the edge `a → b` to the table changes no reachability fact from a
node `x` that could not reach `a`: the check after the fusion insertion sees
the same answers as against the pre-mutation table. -/
theorem reach_insert_iff {m : NodeMap} {a b x : NodeId}
    (hna : ¬ NodeReach m x a) (y : NodeId) :
    NodeReach (nodeAddEdge m a b).2 x y ↔ NodeReach m x y := by
  unfold NodeReach
  rw [rtg_congr (fun p q => edgeRel_nodeAddEdge m a b p q) x y]
  exact rtg_union_single hna y

theorem cycleCheck_hasCycles_of_false {g : CycleGraph} (h : g.hasCycles = false)
    (s t : NodeId) :
    (cycleCheck g s t).hasCycles = checkReachableNodes g.actionToNode s t := by
  simp [cycleCheck, h]

theorem addEdgeNodes_hasCycles_of_false {g : CycleGraph} (h : g.hasCycles = false)
    (a b : NodeId) :
    (addEdgeNodes g a b).hasCycles =
      (checkReachableNodes g.actionToNode b a ||
        match (getN g.actionToNode a).hasRMW with
        | none => false
        | some r =>
            if r = b then false
            else checkReachableNodes (nodeAddEdge g.actionToNode a b).2 b r) := by
  have hscrut : (getN (insertAndLog (cycleCheck g b a) a b).actionToNode a).hasRMW
      = (getN g.actionToNode a).hasRMW := by
    rw [insertAndLog_actionToNode, rmw_nodeAddEdge, cycleCheck_actionToNode]
  have hmap2 : (insertAndLog (cycleCheck g b a) a b).actionToNode =
      (nodeAddEdge g.actionToNode a b).2 := by
    rw [insertAndLog_actionToNode, cycleCheck_actionToNode]
  cases hc1 : checkReachableNodes g.actionToNode b a with
  | true =>
      have hg2 : (insertAndLog (cycleCheck g b a) a b).hasCycles = true := by
        rw [insertAndLog_hasCycles, cycleCheck_hasCycles_of_false h, hc1]
      rw [Bool.true_or]
      simp only [addEdgeNodes]
      split
      · exact hg2
      · split
        · exact hg2
        · rw [insertAndLog_hasCycles, cycleCheck_of_true hg2]
          exact hg2
  | false =>
      have hg2f : (insertAndLog (cycleCheck g b a) a b).hasCycles = false := by
        rw [insertAndLog_hasCycles, cycleCheck_hasCycles_of_false h, hc1]
      rw [Bool.false_or]
      simp only [addEdgeNodes, hscrut]
      cases hr : (getN g.actionToNode a).hasRMW with
      | none => exact hg2f
      | some r =>
          dsimp only
          by_cases hrb : r = b
          · rw [if_pos hrb, if_pos hrb]
            exact hg2f
          · rw [if_neg hrb, if_neg hrb, insertAndLog_hasCycles,
              cycleCheck_hasCycles_of_false hg2f, hmap2]

/-- C2: while hasCycles is false, addEdge(A, B) turns it true exactly when B
could already reach A in the pre-mutation graph, or (fusion step) when A has
an RMW reader distinct from B that B could already reach; and once true the
flag stays true under every further addEdge/addRMWEdge call. -/
theorem claim_C2_cycle_detection (g : CycleGraph) (a b : NodeId) :
    (g.hasCycles = false →
      ((addEdge g a b).hasCycles = true ↔
        NodeReach g.actionToNode b a ∨
          ∃ r, rmwOf g a = some r ∧ r ≠ b ∧ NodeReach g.actionToNode b r)) ∧
    (∀ ops, g.hasCycles = true → (applyOps g ops).hasCycles = true) := by
  refine ⟨?_, fun ops h => applyOps_hasCycles_mono h ops⟩
  intro h
  have hEc : (getNodeG (getNodeG g a) b).hasCycles = false := by
    rw [getNodeG_hasCycles, getNodeG_hasCycles]
    exact h
  have hEm : MapEquiv (getNodeG (getNodeG g a) b).actionToNode g.actionToNode :=
    (getNodeG_equiv (getNodeG g a) b).trans (getNodeG_equiv g a)
  have haddeq : addEdge g a b = addEdgeNodes (getNodeG (getNodeG g a) b) a b := rfl
  have hrmwE : (getN (getNodeG (getNodeG g a) b).actionToNode a).hasRMW = rmwOf g a :=
    congrArg CycleNode.hasRMW (hEm a)
  have hreach1 : checkReachableNodes (getNodeG (getNodeG g a) b).actionToNode b a = true ↔
      NodeReach g.actionToNode b a := by
    rw [checkReachableNodes_iff]
    exact nodeReach_mapEquiv hEm b a
  rw [haddeq, addEdgeNodes_hasCycles_of_false hEc a b, hrmwE]
  cases hr : rmwOf g a with
  | none =>
      dsimp only
      simp only [Bool.or_false]
      constructor
      · intro hc
        exact Or.inl (hreach1.mp hc)
      · rintro (hc | ⟨r, hr', -, -⟩)
        · exact hreach1.mpr hc
        · cases hr'
  | some r =>
      dsimp only
      by_cases hrb : r = b
      · subst hrb
        rw [if_pos rfl]
        simp only [Bool.or_false]
        constructor
        · intro hc
          exact Or.inl (hreach1.mp hc)
        · rintro (hc | ⟨r', hr', hne, -⟩)
          · exact hreach1.mpr hc
          · exact absurd (Option.some_inj.mp hr').symm hne
      · rw [if_neg hrb]
        cases hc1 : checkReachableNodes (getNodeG (getNodeG g a) b).actionToNode b a with
        | true =>
            simp only [Bool.true_or]
            constructor
            · intro _
              exact Or.inl (hreach1.mp hc1)
            · intro _
              trivial
        | false =>
            simp only [Bool.false_or]
            have hna : ¬ NodeReach (getNodeG (getNodeG g a) b).actionToNode b a := by
              intro hna'
              have := (checkReachableNodes_iff _ b a).mpr hna'
              rw [hc1] at this
              cases this
            have hc2iff : checkReachableNodes
                (nodeAddEdge (getNodeG (getNodeG g a) b).actionToNode a b).2 b r = true ↔
                NodeReach g.actionToNode b r := by
              rw [checkReachableNodes_iff, reach_insert_iff hna r]
              exact nodeReach_mapEquiv hEm b r
            rw [hc2iff]
            constructor
            · intro hcr
              exact Or.inr ⟨r, rfl, hrb, hcr⟩
            · rintro (hcr | ⟨r', hr', hne, hre⟩)
              · exfalso
                have := hreach1.mpr hcr
                rw [hc1] at this
                cases this
              · have hrr : r = r' := Option.some_inj.mp hr'
                exact hrr ▸ hre

/-- Witness for C2: a concrete cycle-free graph for the detection
equivalence, and a concrete cyclic graph for stickiness. -/
theorem claim_C2_witness :
    (addEdge CycleGraph.init 0 1).hasCycles = false ∧
    ((addEdge (addEdge CycleGraph.init 0 1) 1 2).hasCycles = true ↔
      NodeReach (addEdge CycleGraph.init 0 1).actionToNode 2 1 ∨
        ∃ r, rmwOf (addEdge CycleGraph.init 0 1) 1 = some r ∧ r ≠ 2 ∧
          NodeReach (addEdge CycleGraph.init 0 1).actionToNode 2 r) ∧
    (addEdge (addEdge CycleGraph.init 0 1) 1 0).hasCycles = true ∧
    (applyOps (addEdge (addEdge CycleGraph.init 0 1) 1 0)
      [Op.edge 2 3]).hasCycles = true := by
  have h1 : (addEdge CycleGraph.init 0 1).hasCycles = false := by decide
  have h2 : (addEdge (addEdge CycleGraph.init 0 1) 1 0).hasCycles = true := by decide
  exact ⟨h1, (claim_C2_cycle_detection (addEdge CycleGraph.init 0 1) 1 2).1 h1, h2,
    (claim_C2_cycle_detection (addEdge (addEdge CycleGraph.init 0 1) 1 0) 2 3).2
      [Op.edge 2 3] h2⟩

/-! ## Idempotence of edge insertion -/

theorem present_mapPut {m : NodeMap} {j : NodeId}
    (h : (mapGet m j).isSome) (k : NodeId) (v : CycleNode) :
    (mapGet (mapPut m k v) j).isSome = true := by
  rw [mapGet_mapPut]
  by_cases hj : j = k
  · rw [if_pos hj]
    rfl
  · rw [if_neg hj]
    exact h

theorem present_nodeAddEdge {m : NodeMap} {j : NodeId}
    (h : (mapGet m j).isSome) (a b : NodeId) :
    (mapGet (nodeAddEdge m a b).2 j).isSome = true := by
  by_cases hmem : b ∈ (getN m a).edges
  · rw [nodeAddEdge_of_mem hmem]
    exact h
  · simp only [nodeAddEdge, if_neg hmem]
    exact present_mapPut (present_mapPut h _ _) _ _

theorem getNodeG_present (g : CycleGraph) (k : NodeId) :
    (mapGet (getNodeG g k).actionToNode k).isSome = true := by
  cases h : mapGet g.actionToNode k with
  | none => simp [getNodeG, h, mapGet_mapPut]
  | some v => simp [getNodeG, h]

theorem present_getNodeG {g : CycleGraph} {j : NodeId}
    (h : (mapGet g.actionToNode j).isSome) (k : NodeId) :
    (mapGet (getNodeG g k).actionToNode j).isSome = true := by
  cases hm : mapGet g.actionToNode k with
  | none =>
      simp only [getNodeG, hm]
      exact present_mapPut h _ _
  | some v =>
      simp only [getNodeG, hm]
      exact h

theorem getNodeG_of_present {g : CycleGraph} {k : NodeId}
    (h : (mapGet g.actionToNode k).isSome) : getNodeG g k = g := by
  unfold getNodeG
  cases hm : mapGet g.actionToNode k with
  | none => rw [hm] at h; cases h
  | some v => rfl

theorem present_addEdgeNodes {g : CycleGraph} {j : NodeId}
    (h : (mapGet g.actionToNode j).isSome) (a b : NodeId) :
    (mapGet (addEdgeNodes g a b).actionToNode j).isSome = true := by
  have h2 : (mapGet (insertAndLog (cycleCheck g b a) a b).actionToNode j).isSome = true := by
    rw [insertAndLog_actionToNode, cycleCheck_actionToNode]
    exact present_nodeAddEdge h a b
  simp only [addEdgeNodes]
  split
  · exact h2
  · split
    · exact h2
    · rw [insertAndLog_actionToNode, cycleCheck_actionToNode]
      exact present_nodeAddEdge h2 _ b

theorem rmwOf_insertAndLog (g : CycleGraph) (x y k : NodeId) :
    rmwOf (insertAndLog g x y) k = rmwOf g k := by
  unfold rmwOf
  rw [insertAndLog_actionToNode, rmw_nodeAddEdge]

theorem rmwOf_cycleCheck (g : CycleGraph) (s t k : NodeId) :
    rmwOf (cycleCheck g s t) k = rmwOf g k := by
  unfold rmwOf
  rw [cycleCheck_actionToNode]

theorem rmwOf_addEdgeNodes (g : CycleGraph) (a b k : NodeId) :
    rmwOf (addEdgeNodes g a b) k = rmwOf g k := by
  simp only [addEdgeNodes]
  split
  · rw [rmwOf_insertAndLog, rmwOf_cycleCheck]
  · split
    · rw [rmwOf_insertAndLog, rmwOf_cycleCheck]
    · rw [rmwOf_insertAndLog, rmwOf_cycleCheck, rmwOf_insertAndLog, rmwOf_cycleCheck]

theorem addEdgeNodes_rmw_edge {g : CycleGraph} {a b r : NodeId}
    (hr : (getN g.actionToNode a).hasRMW = some r) (hrb : r ≠ b) :
    b ∈ edgesOf (addEdgeNodes g a b) r := by
  have hscrut : (getN (insertAndLog (cycleCheck g b a) a b).actionToNode a).hasRMW
      = some r := by
    rw [insertAndLog_actionToNode, rmw_nodeAddEdge, cycleCheck_actionToNode]
    exact hr
  simp only [addEdgeNodes, hscrut]
  rw [if_neg hrb]
  exact insertAndLog_self_mem _ r b

theorem hasCycles_eta {g : CycleGraph} {c : Bool} (h : g.hasCycles = c) :
    { g with hasCycles := c } = g := by
  cases g
  subst h
  rfl

theorem insertAndLog_of_mem {g : CycleGraph} {x y : NodeId}
    (h : y ∈ edgesOf g x) : insertAndLog g x y = g := by
  simp [insertAndLog, nodeAddEdge_of_mem h]

theorem cycleCheck_noop {g : CycleGraph} {s t : NodeId}
    (h : g.hasCycles = true ∨ checkReachableNodes g.actionToNode s t = false) :
    cycleCheck g s t = g := by
  cases hc : g.hasCycles with
  | true => exact cycleCheck_of_true hc s t
  | false =>
      rcases h with h | h
      · rw [hc] at h; cases h
      · have h1 : cycleCheck g s t =
            { g with hasCycles := checkReachableNodes g.actionToNode s t } := by
          simp [cycleCheck, hc]
        rw [h1, h]
        exact hasCycles_eta hc

theorem addEdgeNodes_noop (g : CycleGraph) (a b : NodeId)
    (hmem : b ∈ edgesOf g a)
    (hc1 : g.hasCycles = true ∨ checkReachableNodes g.actionToNode b a = false)
    (hrmw : ∀ r, (getN g.actionToNode a).hasRMW = some r → r ≠ b →
      b ∈ edgesOf g r ∧
        (g.hasCycles = true ∨ checkReachableNodes g.actionToNode b r = false)) :
    addEdgeNodes g a b = g := by
  have hcc1 : cycleCheck g b a = g := cycleCheck_noop hc1
  have hins : insertAndLog g a b = g := insertAndLog_of_mem hmem
  simp only [addEdgeNodes, hcc1, hins]
  cases hr : (getN g.actionToNode a).hasRMW with
  | none => rfl
  | some r =>
      dsimp only
      by_cases hrb : r = b
      · rw [if_pos hrb]
      · rw [if_neg hrb]
        obtain ⟨hm2, hc2⟩ := hrmw r hr hrb
        rw [cycleCheck_noop hc2, insertAndLog_of_mem hm2]

theorem addEdgeNodes_map_nofusion {g : CycleGraph} {a b : NodeId}
    (h : ∀ r, (getN g.actionToNode a).hasRMW = some r → r = b) :
    (addEdgeNodes g a b).actionToNode = (nodeAddEdge g.actionToNode a b).2 := by
  have hmap2 : (insertAndLog (cycleCheck g b a) a b).actionToNode =
      (nodeAddEdge g.actionToNode a b).2 := by
    rw [insertAndLog_actionToNode, cycleCheck_actionToNode]
  have hscrut : (getN (insertAndLog (cycleCheck g b a) a b).actionToNode a).hasRMW
      = (getN g.actionToNode a).hasRMW := by
    rw [insertAndLog_actionToNode, rmw_nodeAddEdge, cycleCheck_actionToNode]
  simp only [addEdgeNodes, hscrut]
  cases hr : (getN g.actionToNode a).hasRMW with
  | none => exact hmap2
  | some r =>
      dsimp only
      rw [if_pos (h r hr)]
      exact hmap2

theorem addEdgeNodes_map_fusion {g : CycleGraph} {a b r : NodeId}
    (hr : (getN g.actionToNode a).hasRMW = some r) (hrb : r ≠ b) :
    (addEdgeNodes g a b).actionToNode =
      (nodeAddEdge (nodeAddEdge g.actionToNode a b).2 r b).2 := by
  have hscrut : (getN (insertAndLog (cycleCheck g b a) a b).actionToNode a).hasRMW
      = some r := by
    rw [insertAndLog_actionToNode, rmw_nodeAddEdge, cycleCheck_actionToNode]
    exact hr
  simp only [addEdgeNodes, hscrut]
  rw [if_neg hrb, insertAndLog_actionToNode, cycleCheck_actionToNode,
    insertAndLog_actionToNode, cycleCheck_actionToNode]

/-- C7: calling addEdge(A, B) a second time with the same ordered pair
leaves the whole state exactly as after the first call — in particular every
node's edge set, the hasCycles flag and the lengths of both rollback logs
are unchanged and no log entry is produced. -/
theorem claim_C7_idempotent (g : CycleGraph) (a b : NodeId) :
    addEdge (addEdge g a b) a b = addEdge g a b ∧
    (∀ n, edgesOf (addEdge (addEdge g a b) a b) n = edgesOf (addEdge g a b) n) ∧
    (addEdge (addEdge g a b) a b).hasCycles = (addEdge g a b).hasCycles ∧
    (addEdge (addEdge g a b) a b).rollbackvector.length =
      (addEdge g a b).rollbackvector.length ∧
    (addEdge (addEdge g a b) a b).rmwrollbackvector.length =
      (addEdge g a b).rmwrollbackvector.length := by
  have key : addEdge (addEdge g a b) a b = addEdge g a b := by
    have h1 : addEdge g a b = addEdgeNodes (getNodeG (getNodeG g a) b) a b := rfl
    rw [h1]
    set gE := getNodeG (getNodeG g a) b with hgEdef
    set g1 := addEdgeNodes gE a b with hg1def
    have hpa : (mapGet g1.actionToNode a).isSome = true := by
      rw [hg1def]
      exact present_addEdgeNodes (present_getNodeG (getNodeG_present g a) b) a b
    have hpb : (mapGet g1.actionToNode b).isSome = true := by
      rw [hg1def]
      exact present_addEdgeNodes (getNodeG_present (getNodeG g a) b) a b
    have hens : addEdge g1 a b = addEdgeNodes g1 a b := by
      unfold addEdge
      rw [getNodeG_of_present hpa, getNodeG_of_present hpb]
    rw [hens]
    have hmem1 : b ∈ edgesOf g1 a := by
      rw [hg1def]
      exact addEdgeNodes_self_mem gE a b
    have hrmw1 : (getN g1.actionToNode a).hasRMW = (getN gE.actionToNode a).hasRMW := by
      rw [hg1def]
      exact rmwOf_addEdgeNodes gE a b a
    cases hc : g1.hasCycles with
    | true =>
        refine addEdgeNodes_noop g1 a b hmem1 (Or.inl hc) ?_
        intro r hr hrb
        have hrE : (getN gE.actionToNode a).hasRMW = some r := hrmw1.symm.trans hr
        refine ⟨?_, Or.inl hc⟩
        rw [hg1def]
        exact addEdgeNodes_rmw_edge hrE hrb
    | false =>
        have hEc : gE.hasCycles = false := by
          cases hEcc : gE.hasCycles with
          | false => rfl
          | true =>
              exfalso
              have hmono := addEdgeNodes_hasCycles_mono hEcc a b
              rw [← hg1def, hc] at hmono
              cases hmono
        have hform := addEdgeNodes_hasCycles_of_false hEc a b
        rw [← hg1def, hc] at hform
        obtain ⟨hcc1, harm⟩ := Bool.or_eq_false_iff.mp hform.symm
        have hna0 : ¬ NodeReach gE.actionToNode b a := by
          intro hre
          have hx := (checkReachableNodes_iff gE.actionToNode b a).mpr hre
          rw [hcc1] at hx
          cases hx
        cases hrE : (getN gE.actionToNode a).hasRMW with
        | none =>
            have hmap : g1.actionToNode = (nodeAddEdge gE.actionToNode a b).2 := by
              rw [hg1def]
              exact addEdgeNodes_map_nofusion (fun r hr => by rw [hrE] at hr; cases hr)
            have hchk1 : checkReachableNodes g1.actionToNode b a = false := by
              cases hx : checkReachableNodes g1.actionToNode b a with
              | false => rfl
              | true =>
                  exfalso
                  have hre := (checkReachableNodes_iff _ b a).mp hx
                  rw [hmap] at hre
                  exact hna0 ((reach_insert_iff hna0 a).mp hre)
            refine addEdgeNodes_noop g1 a b hmem1 (Or.inr hchk1) ?_
            intro r hr hrb
            rw [hrmw1, hrE] at hr
            cases hr
        | some r0 =>
            by_cases hr0b : r0 = b
            · have hmap : g1.actionToNode = (nodeAddEdge gE.actionToNode a b).2 := by
                rw [hg1def]
                refine addEdgeNodes_map_nofusion (fun r hr => ?_)
                rw [hrE, Option.some_inj] at hr
                rw [← hr]
                exact hr0b
              have hchk1 : checkReachableNodes g1.actionToNode b a = false := by
                cases hx : checkReachableNodes g1.actionToNode b a with
                | false => rfl
                | true =>
                    exfalso
                    have hre := (checkReachableNodes_iff _ b a).mp hx
                    rw [hmap] at hre
                    exact hna0 ((reach_insert_iff hna0 a).mp hre)
              refine addEdgeNodes_noop g1 a b hmem1 (Or.inr hchk1) ?_
              intro r hr hrb
              rw [hrmw1, hrE, Option.some_inj] at hr
              exact absurd (hr ▸ hr0b) hrb
            · have harm2 : checkReachableNodes (nodeAddEdge gE.actionToNode a b).2 b r0
                  = false := by
                rw [hrE] at harm
                simpa [hr0b] using harm
              have hnr1 : ¬ NodeReach (nodeAddEdge gE.actionToNode a b).2 b r0 := by
                intro hre
                have hx := (checkReachableNodes_iff _ b r0).mpr hre
                rw [harm2] at hx
                cases hx
              have hmap : g1.actionToNode =
                  (nodeAddEdge (nodeAddEdge gE.actionToNode a b).2 r0 b).2 := by
                rw [hg1def]
                exact addEdgeNodes_map_fusion hrE hr0b
              have hchk1 : checkReachableNodes g1.actionToNode b a = false := by
                cases hx : checkReachableNodes g1.actionToNode b a with
                | false => rfl
                | true =>
                    exfalso
                    have hre := (checkReachableNodes_iff _ b a).mp hx
                    rw [hmap] at hre
                    exact hna0 ((reach_insert_iff hna0 a).mp
                      ((reach_insert_iff hnr1 a).mp hre))
              have hchk2 : checkReachableNodes g1.actionToNode b r0 = false := by
                cases hx : checkReachableNodes g1.actionToNode b r0 with
                | false => rfl
                | true =>
                    exfalso
                    have hre := (checkReachableNodes_iff _ b r0).mp hx
                    rw [hmap] at hre
                    exact hnr1 ((reach_insert_iff hnr1 r0).mp hre)
              refine addEdgeNodes_noop g1 a b hmem1 (Or.inr hchk1) ?_
              intro r hr hrb
              rw [hrmw1, hrE, Option.some_inj] at hr
              cases hr
              exact ⟨by rw [hg1def]; exact addEdgeNodes_rmw_edge hrE hr0b,
                Or.inr hchk2⟩
  exact ⟨key, fun n => by rw [key], by rw [key], by rw [key], by rw [key]⟩

example : edgesOf (addEdge CycleGraph.init 0 1) 0 = [1] := by decide
example : backEdgesOf (addEdge CycleGraph.init 0 1) 1 = [0] := by decide
example : (addEdge CycleGraph.init 0 1).rollbackvector = [0] := by decide
example : (addEdge (addEdge CycleGraph.init 0 1) 0 1).rollbackvector = [0] := by decide
example : (addEdge (addEdge CycleGraph.init 0 1) 1 0).hasCycles = true := by decide
example : (addEdge (addEdge CycleGraph.init 0 1) 1 2).hasCycles = false := by decide
example : checkReachableActions (addEdge (addEdge CycleGraph.init 0 1) 1 2) 0 2 = true := by decide
example : checkReachableActions CycleGraph.init 0 0 = false := by decide
example : rollbackChanges (addEdge CycleGraph.init 0 1) =
    { CycleGraph.init with actionToNode := [(0, .fresh), (1, .fresh)] } := by decide
example : edgesOf (addRMWEdge (addEdge CycleGraph.init 0 1) 0 2) 2 = [1] := by decide
example : edgesOf (addRMWEdge (addEdge CycleGraph.init 0 1) 0 2) 0 = [1, 2] := by decide
example : rmwOf (addRMWEdge (addEdge CycleGraph.init 0 1) 0 2) 0 = some 2 := by decide
example : checkPromise CycleGraph.init (fun _ => 0) ⟨fun _ => true⟩ 0 = none := by decide
example :
    checkPromise (addEdge CycleGraph.init 0 1) (fun i => i) ⟨fun t => t = 1⟩ 0 =
      some true := by decide
